import Mathlib

/-!
Shallow embedding of the `bevy_prototype_scheduler` repository.

Task identifiers (`SystemId`), stage labels and boxed stages are modelled as `Nat`.
Hash maps are modelled as association lists, hash sets as duplicate-free lists.
A Rust panic (`unreachable!`, `unwrap`, `expect`, `assert!`) is modelled as `Option.none`
where the operation's result is needed, and noted in a comment otherwise.
-/

/-- Modelled from the spec: the access sets (`TypeAccess` / `ArchetypeAccess` of `bevy_ecs`)
are external to this repository.  The spec describes an AccessSet as "an unordered collection
of (resource-identifier, mode) pairs, mode ∈ \x7bRead, Write\x7d". -/
structure Access where
  reads : List Nat
  writes : List Nat
deriving Repr, DecidableEq

/-- Modelled from the spec: "Two AccessSets are *compatible* iff for every resource present
in both, neither side accesses it in Write mode (i.e., Read/Read is compatible,
Write/anything and anything/Write on the same resource is not)." -/
def Access.is_compatible (a b : Access) : Bool :=
  a.writes.all (fun r => !(b.reads.contains r) && !(b.writes.contains r)) &&
  b.writes.all (fun r => !(a.reads.contains r) && !(a.writes.contains r))

/-- Embeds `SchedulerSystemContainer` (src/src/scheduling.rs).  The boxed system is
represented by its two access sets (read through `resource_access()` /
`archetype_access()` in the source); the `notifier` event is modelled by membership of
the container's id in the `running` set of the scheduler state. -/
structure SchedulerSystemContainer where
  resource_access : Access
  archetype_access : Access
  dependants : List Nat
  deps_total : Nat
  deps_now : Nat
deriving Repr, DecidableEq

/-- Embeds the mutable scheduling state of `UnorderedSchedulerSystem`
(src/src/scheduling.rs).  The channel, name and id fields take no part in the
scheduling algorithm and are omitted. -/
structure UnorderedSchedulerSystem where
  last_archetypes_generation : Nat
  system_containers : List (Nat × SchedulerSystemContainer)
  queued : List Nat
  running : List Nat
  dependants_scratch : List Nat
deriving Repr, DecidableEq

/-- The world, as seen by the scheduler: a generation counter, and for every system the
archetype access that `update_archetype_access` would compute against this world. -/
structure World where
  archetypes_generation : Nat
  archetype_access_of : Nat → Access

/-- Association-list lookup, embedding `self.system_containers.get(&id)`. -/
def lookupC (cs : List (Nat × SchedulerSystemContainer)) (id : Nat) :
    Option SchedulerSystemContainer :=
  match cs.find? (fun p => p.1 == id) with
  | some p => some p.2
  | none => none

/-- Embeds `UnorderedSchedulerSystem::prepare` (src/src/scheduling.rs lines 115-162):
resets every dependency counter to `deps_total`, queues the systems whose counter is zero,
and — only when the cached generation differs from the world's — recomputes every system's
archetype access and stores the world's generation.  (The spawning of the per-system
waiting tasks has no effect on the scheduler state and is not modelled.) -/
def prepare (s : UnorderedSchedulerSystem) (w : World) : UnorderedSchedulerSystem :=
  if s.last_archetypes_generation == w.archetypes_generation then
    let cs := s.system_containers.map (fun p => (p.1, { p.2 with deps_now := p.2.deps_total }))
    { s with
      system_containers := cs,
      queued := s.queued ++ cs.filterMap (fun p => if p.2.deps_now = 0 then some p.1 else none) }
  else
    let cs := s.system_containers.map (fun p =>
      (p.1, { p.2 with deps_now := p.2.deps_total,
                       archetype_access := w.archetype_access_of p.1 }))
    { s with
      system_containers := cs,
      queued := s.queued ++ cs.filterMap (fun p => if p.2.deps_now = 0 then some p.1 else none),
      last_archetypes_generation := w.archetypes_generation }

/-- Embeds `UnorderedSchedulerSystem::can_start_now` (src/src/scheduling.rs lines 183-212),
generalised over the running set so that the admission pass can supply the set as already
extended by earlier admissions.  A failed container lookup panics in the source
(`unreachable!`); it is modelled as `false` and never arises for well-formed states. -/
def canStartNowWith (cs : List (Nat × SchedulerSystemContainer)) (running : List Nat)
    (id : Nat) : Bool :=
  match lookupC cs id with
  | none => false
  | some c =>
    running.all (fun rid =>
      match lookupC cs rid with
      | none => false
      | some other =>
        c.resource_access.is_compatible other.resource_access &&
        c.archetype_access.is_compatible other.archetype_access)

/-- The method `can_start_now` itself, checking against the state's own running set. -/
def can_start_now (s : UnorderedSchedulerSystem) (id : Nat) : Bool :=
  canStartNowWith s.system_containers s.running id

/-- Insertion into the `running` hash set. -/
def insertRunning (r : List Nat) (id : Nat) : List Nat :=
  if r.contains id then r else id :: r

/-- The running set produced by the admission pass after handling a prefix of `queued`:
each id is admitted against the running set as already extended by earlier admissions. -/
def runningAfterPass (s : UnorderedSchedulerSystem) (q : List Nat) : List Nat :=
  q.foldl
    (fun r id => if canStartNowWith s.system_containers r id then insertRunning r id else r)
    s.running

/-- Embeds `UnorderedSchedulerSystem::start_all_runnable_queued_systems`
(src/src/scheduling.rs lines 166-180): walks `queued`, inserting into `running` (and
notifying, modelled by the membership itself) every id whose `can_start_now` holds against
the running set as extended so far, then retains in `queued` only the ids not in the new
running set. -/
def start_all_runnable_queued_systems (s : UnorderedSchedulerSystem) :
    UnorderedSchedulerSystem :=
  let running := runningAfterPass s s.queued
  { s with running := running,
           queued := s.queued.filter (fun id => !(running.contains id)) }

/-- Embeds `UnorderedSchedulerSystem::process_finished_system`
(src/src/scheduling.rs lines 215-223): removes the id from `running` and appends the
finished system's dependants to `dependants_scratch`.  A failed lookup panics in the
source (`unreachable!`); modelled as leaving the scratch space unchanged. -/
def process_finished_system (s : UnorderedSchedulerSystem) (id : Nat) :
    UnorderedSchedulerSystem :=
  let s' := { s with running := s.running.filter (fun x => !(x == id)) }
  match lookupC s.system_containers id with
  | none => s'
  | some c => { s' with dependants_scratch := s'.dependants_scratch ++ c.dependants }

/-- One step of the drain loop of `update_counters_and_queue_systems`: decrement the
dependant's counter and queue it when the counter reaches zero.  A failed lookup panics
in the source (`unreachable!`); modelled as a no-op. -/
def drainStep (acc : List (Nat × SchedulerSystemContainer) × List Nat) (id : Nat) :
    List (Nat × SchedulerSystemContainer) × List Nat :=
  match lookupC acc.1 id with
  | none => acc
  | some c =>
    (acc.1.map (fun p => if p.1 = id then (p.1, { p.2 with deps_now := p.2.deps_now - 1 }) else p),
     if c.deps_now - 1 = 0 then acc.2 ++ [id] else acc.2)

/-- Embeds `UnorderedSchedulerSystem::update_counters_and_queue_systems`
(src/src/scheduling.rs lines 227-238): drains `dependants_scratch`, decrementing each
listed system's `deps_now` once per occurrence and pushing it onto `queued` the moment
the counter reaches zero. -/
def update_counters_and_queue_systems (s : UnorderedSchedulerSystem) :
    UnorderedSchedulerSystem :=
  let r := s.dependants_scratch.foldl drainStep (s.system_containers, s.queued)
  { s with system_containers := r.1, queued := r.2, dependants_scratch := [] }

/-- A boxed `bevy_ecs` system as the builder sees it: its self-reported name
(`system.name()`), its id (`system.id()`), and its access sets. -/
structure BoxedSystem where
  sysName : String
  sysId : Nat
  resource_access : Access
  archetype_access : Access
deriving Repr, DecidableEq

/-- Embeds `BuilderSystemContainer` (src/src/lib.rs). -/
structure BuilderSystemContainer where
  system : BoxedSystem
  dependencies : List String
deriving Repr, DecidableEq

/-- Embeds the builder `UnorderedScheduler` (src/src/lib.rs).  The hash map keyed by the
user-given names is modelled as an association list. -/
structure UnorderedScheduler where
  name : Option String
  system_containers : List (String × BuilderSystemContainer)
  last_added : Option String
deriving Repr, DecidableEq

/-- Hash-map insertion: replaces the value in place when the key is present. -/
def insertB (m : List (String × BuilderSystemContainer)) (k : String)
    (v : BuilderSystemContainer) : List (String × BuilderSystemContainer) :=
  if m.any (fun p => p.1 == k) then m.map (fun p => if p.1 = k then (k, v) else p)
  else m ++ [(k, v)]

/-- Hash-map lookup on the builder map. -/
def lookupB (m : List (String × BuilderSystemContainer)) (k : String) :
    Option BuilderSystemContainer :=
  match m.find? (fun p => p.1 == k) with
  | some p => some p.2
  | none => none

/-- Embeds `UnorderedScheduler::new`. -/
def UnorderedScheduler.new : UnorderedScheduler :=
  { name := none, system_containers := [], last_added := none }

/-- Embeds `UnorderedScheduler::with_name`. -/
def with_name (s : UnorderedScheduler) (n : String) : UnorderedScheduler :=
  { s with name := some n }

/-- Embeds `UnorderedScheduler::add_named_system` (src/src/lib.rs lines 53-68): records the
name as `last_added` and inserts a fresh container under that name, silently replacing any
container already stored there. -/
def add_named_system (s : UnorderedScheduler) (name : String) (system : BoxedSystem) :
    UnorderedScheduler :=
  { s with
    last_added := some name,
    system_containers :=
      insertB s.system_containers name { system := system, dependencies := [] } }

/-- Embeds `UnorderedScheduler::add_system` (src/src/lib.rs lines 48-50): delegates to
`add_named_system` with the system's self-reported name. -/
def add_system (s : UnorderedScheduler) (system : BoxedSystem) : UnorderedScheduler :=
  add_named_system s system.sysName system

/-- Embeds `UnorderedScheduler::depends_on` (src/src/lib.rs lines 71-82).  The source
panics (`expect` with message "unable to add a dependency: insert a system first") when no
system has been inserted yet; both panics are modelled as `none`. -/
def depends_on (s : UnorderedScheduler) (dependency_name : String) :
    Option UnorderedScheduler :=
  match s.last_added with
  | none => none
  | some last =>
    match lookupB s.system_containers last with
    | none => none
    | some c =>
      some { s with
             system_containers :=
               insertB s.system_containers last
                 { c with dependencies := c.dependencies ++ [dependency_name] } }

/-- States of the builder reachable through its public API. -/
inductive BuilderReachable : UnorderedScheduler → Prop
  | new : BuilderReachable UnorderedScheduler.new
  | withName (s n) : BuilderReachable s → BuilderReachable (with_name s n)
  | addNamed (s n sys) : BuilderReachable s → BuilderReachable (add_named_system s n sys)
  | add (s sys) : BuilderReachable s → BuilderReachable (add_system s sys)
  | dep (s d s') : BuilderReachable s → depends_on s d = some s' → BuilderReachable s'

/-- Pushes a dependant id onto the `dependants` list of the entry whose key (the
dependee's self-reported system name) matches; `none` models the `unreachable!` panic of
`into_system` when the name resolves to no entry. -/
def pushDependant (m : List (String × Nat × SchedulerSystemContainer)) (dependee : String)
    (dependant : Nat) : Option (List (String × Nat × SchedulerSystemContainer)) :=
  if m.any (fun p => p.1 == dependee) then
    some (m.map (fun p =>
      if p.1 = dependee then
        (p.1, p.2.1, { p.2.2 with dependants := p.2.2.dependants ++ [dependant] })
      else p))
  else none

/-- The dependant-population loop of `into_system`: for every (dependant id, dependency
names) pair, resolves each dependency name and pushes the dependant's id. -/
def resolveAll (m : List (String × Nat × SchedulerSystemContainer))
    (deps : List (Nat × List String)) : Option (List (String × Nat × SchedulerSystemContainer)) :=
  deps.foldl
    (fun acc d =>
      d.2.foldl (fun acc' dependee => acc'.bind (fun mm => pushDependant mm dependee d.1)) acc)
    (some m)

/-- Initial value of `last_archetypes_generation`: `ArchetypesGeneration(u64::MAX)`. -/
def u64Max : Nat := 18446744073709551615

/-- Embeds `UnorderedScheduler::into_system` (src/src/lib.rs lines 85-146).  Phase one
drains the builder map, caching each system's (id, dependency names) and wrapping it into
a `SchedulerSystemContainer` keyed by the system's OWN reported name
(`container.system.name()` — not the user-given registration key).  Phase two resolves
every cached dependency name against those self-reported names, pushing the dependant's
id; an unresolved name hits `unwrap_or_else(|| unreachable!())`, a panic modelled as
`none`. -/
def into_system (s : UnorderedScheduler) : Option UnorderedSchedulerSystem :=
  let all_dependencies := s.system_containers.map (fun p => (p.2.system.sysId, p.2.dependencies))
  let ids_and_containers : List (String × Nat × SchedulerSystemContainer) :=
    s.system_containers.map (fun p =>
      (p.2.system.sysName, p.2.system.sysId,
       { resource_access := p.2.system.resource_access,
         archetype_access := p.2.system.archetype_access,
         dependants := [],
         deps_total := p.2.dependencies.length,
         deps_now := 0 }))
  (resolveAll ids_and_containers all_dependencies).map (fun m =>
    { last_archetypes_generation := u64Max,
      system_containers := m.map (fun p => (p.2.1, p.2.2)),
      queued := [],
      running := [],
      dependants_scratch := [] })

/-- Embeds the `Schedule` stage pipeline (src/src/schedule.rs).  Boxed stages and
type-erased labels are both modelled as `Nat`; the label hash map is an association
list. -/
structure Schedule where
  stages : List Nat
  index_table : List (Nat × Nat)
deriving Repr, DecidableEq

/-- Embeds `Schedule::stage_index`. -/
def stage_index (s : Schedule) (label : Nat) : Option Nat :=
  match s.index_table.find? (fun p => p.1 == label) with
  | some p => some p.2
  | none => none

/-- Embeds `Schedule::insert_stage` (src/src/schedule.rs lines 23-32): inserts the stage
at the given position and increments every table index at or past that position. -/
def insert_stage (s : Schedule) (i : Nat) (stage : Nat) : Schedule :=
  { stages := s.stages.insertIdx i stage,
    index_table := s.index_table.map (fun p => if i ≤ p.2 then (p.1, p.2 + 1) else p) }

/-- Embeds `Schedule::remove_stage` (src/src/schedule.rs lines 34-44): removes the stage
at the given position and decrements every table index strictly past that position. -/
def remove_stage (s : Schedule) (i : Nat) : Schedule :=
  { stages := s.stages.eraseIdx i,
    index_table := s.index_table.map (fun p => if i < p.2 then (p.1, p.2 - 1) else p) }

/-- Embeds `Schedule::insert_label`; `none` models the `assert!` failure on a duplicate
label. -/
def insert_label (s : Schedule) (i : Nat) (label : Nat) : Option Schedule :=
  if s.index_table.any (fun p => p.1 == label) then none
  else some { s with index_table := s.index_table ++ [(label, i)] }

/-- Embeds `Schedule::remove_label`, returning the removed index alongside the state. -/
def remove_label (s : Schedule) (label : Nat) : Option (Schedule × Nat) :=
  match stage_index s label with
  | none => none
  | some i =>
    some ({ s with index_table := s.index_table.filter (fun p => !(p.1 == label)) }, i)

/-- Embeds `Schedule::add` (src/src/schedule.rs lines 55-58): registers the label at
index `stages.len()` and pushes the stage at the end. -/
def Schedule.add (s : Schedule) (label : Nat) (stage : Nat) : Option Schedule :=
  (insert_label s s.stages.length label).map
    (fun s' => { s' with stages := s'.stages ++ [stage] })

/-- Embeds `Schedule::add_before` (src/src/schedule.rs lines 60-69); `none` models the
`unwrap` panic when the target label is unknown. -/
def add_before (s : Schedule) (target_label label stage : Nat) : Option Schedule :=
  match stage_index s target_label with
  | none => none
  | some i => insert_label (insert_stage s i stage) i label

/-- Embeds `Schedule::add_after` (src/src/schedule.rs lines 71-80). -/
def add_after (s : Schedule) (target_label label stage : Nat) : Option Schedule :=
  match stage_index s target_label with
  | none => none
  | some i => insert_label (insert_stage s (i + 1) stage) (i + 1) label

/-- Embeds `Schedule::remove` (src/src/schedule.rs lines 82-85): removes the label, then
the stage at the index it mapped to. -/
def Schedule.remove (s : Schedule) (label : Nat) : Option Schedule :=
  (remove_label s label).map (fun r => remove_stage r.1 r.2)

/-- Embeds `Schedule::run` (src/src/schedule.rs lines 94-98): the stages are executed in
their positional order; the trace of executed stages is the stage list itself. -/
def Schedule.runTrace (s : Schedule) : List Nat :=
  s.stages

/-- The labels registered in the pipeline. -/
def labelsOf (s : Schedule) : List Nat := s.index_table.map (fun p => p.1)

/-- The stage a label currently denotes: the entry of `stages` at the label's index. -/
def labeledStage (s : Schedule) (label : Nat) : Option Nat :=
  (stage_index s label).bind (fun i => s.stages[i]?)

/-- Well-formedness of the pipeline: labels are distinct, every index is in bounds, and
no two labels share an index. -/
def ScheduleWF (s : Schedule) : Prop :=
  (labelsOf s).Nodup ∧ (∀ p ∈ s.index_table, p.2 < s.stages.length) ∧
    (s.index_table.map (fun p => p.2)).Nodup

/-- The keys (system ids) of the container map. -/
def keysOf (cs : List (Nat × SchedulerSystemContainer)) : List Nat :=
  cs.map (fun p => p.1)

/-- The current dependency counter of a system (0 for an unknown id). -/
def depsNowOf (cs : List (Nat × SchedulerSystemContainer)) (t : Nat) : Nat :=
  match lookupC cs t with
  | some c => c.deps_now
  | none => 0

/-- The declared dependency total of a system (0 for an unknown id). -/
def depsTotalOf (cs : List (Nat × SchedulerSystemContainer)) (t : Nat) : Nat :=
  match lookupC cs t with
  | some c => c.deps_total
  | none => 0

/-- The dependants list of a system (empty for an unknown id). -/
def dependantsOf (cs : List (Nat × SchedulerSystemContainer)) (t : Nat) : List Nat :=
  match lookupC cs t with
  | some c => c.dependants
  | none => []

/-- The access sets of all systems, paired with their ids. -/
def accessesOf (cs : List (Nat × SchedulerSystemContainer)) : List (Nat × Access × Access) :=
  cs.map (fun p => (p.1, p.2.resource_access, p.2.archetype_access))

/-- The number of declared dependencies of `t`, read off the reverse adjacency:
the total number of occurrences of `t` across all dependants lists. -/
def depCount (cs : List (Nat × SchedulerSystemContainer)) (t : Nat) : Nat :=
  (cs.map (fun p => p.2.dependants.count t)).sum

/-- The number of `t`'s declared dependencies that are recorded as finished. -/
def finDeps (cs : List (Nat × SchedulerSystemContainer)) (fin : List Nat) (t : Nat) : Nat :=
  (fin.map (fun a => (dependantsOf cs a).count t)).sum

/-- Well-formedness of the frozen graph, as established by `into_system`: distinct ids,
dependants lists mention only known ids, and `deps_total` agrees with the reverse
adjacency. -/
def GraphWF (cs : List (Nat × SchedulerSystemContainer)) : Prop :=
  (keysOf cs).Nodup ∧ (∀ a ∈ keysOf cs, ∀ d ∈ dependantsOf cs a, d ∈ keysOf cs) ∧
    ∀ a ∈ keysOf cs, depsTotalOf cs a = depCount cs a

/-- Both access dimensions of two systems are compatible (false when either id is
unknown). -/
def compatPair (cs : List (Nat × SchedulerSystemContainer)) (a b : Nat) : Bool :=
  match lookupC cs a, lookupC cs b with
  | some ca, some cb =>
    ca.resource_access.is_compatible cb.resource_access &&
    ca.archetype_access.is_compatible cb.archetype_access
  | _, _ => false

/-- Every two distinct ids of a running set are compatible on both access dimensions. -/
def pairwiseCompatibleOn (cs : List (Nat × SchedulerSystemContainer))
    (running : List Nat) : Prop :=
  ∀ a ∈ running, ∀ b ∈ running, a ≠ b → compatPair cs a b = true

/-- The conflict-exclusion property of a scheduler state. -/
def pairwiseCompatible (s : UnorderedSchedulerSystem) : Prop :=
  pairwiseCompatibleOn s.system_containers s.running

/-- A scheduler state together with the ghost history of processed completions. -/
structure RunState where
  sched : UnorderedSchedulerSystem
  finished : List Nat
deriving Repr, DecidableEq

/-- The atomic transitions of the orchestrator loop of `run_systems`
(src/src/scheduling.rs lines 95-107): an admission pass, the processing of one finished
system received from the completion channel (necessarily one of the running systems), and
the counter-update pass. -/
inductive LoopStep : RunState → RunState → Prop
  | start (s fin) : LoopStep ⟨s, fin⟩ ⟨start_all_runnable_queued_systems s, fin⟩
  | finish (s fin id) : id ∈ s.running →
      LoopStep ⟨s, fin⟩ ⟨process_finished_system s id, fin ++ [id]⟩
  | update (s fin) : LoopStep ⟨s, fin⟩ ⟨update_counters_and_queue_systems s, fin⟩

/-- Reachability through the loop's step relation. -/
def LoopReach : RunState → RunState → Prop :=
  Relation.ReflTransGen LoopStep

/-- The state in which the loop of `run_systems` begins: the prepared state, with no
completions processed yet. -/
def initialState (s : UnorderedSchedulerSystem) (w : World) : RunState :=
  ⟨prepare s w, []⟩

/-- Processing a burst of completions drained from the channel, in order. -/
def processBatch (s : UnorderedSchedulerSystem) (batch : List Nat) :
    UnorderedSchedulerSystem :=
  batch.foldl process_finished_system s

/-- One full iteration of the loop body of `run_systems`: an admission pass, a nonempty
burst of completions, then the counter-update pass. -/
def loopIteration (s : UnorderedSchedulerSystem) (batch : List Nat) :
    UnorderedSchedulerSystem :=
  update_counters_and_queue_systems (processBatch (start_all_runnable_queued_systems s) batch)

/-- A burst of completions the channel can deliver during one iteration: at least one id
(the blocking `recv`), no id twice (each system sends its id once per run), and only ids
of systems running after the admission pass. -/
def ValidBatch (s : UnorderedSchedulerSystem) (batch : List Nat) : Prop :=
  batch ≠ [] ∧ batch.Nodup ∧ ∀ id ∈ batch, id ∈ (start_all_runnable_queued_systems s).running

/-- Executions of the `run_systems` loop, counted by iterations of the loop body. -/
inductive RunTraceN : RunState → Nat → RunState → Prop
  | refl (r) : RunTraceN r 0 r
  | step (r₀ k s fin batch) : RunTraceN r₀ k ⟨s, fin⟩ → ValidBatch s batch →
      RunTraceN r₀ (k + 1) ⟨loopIteration s batch, fin ++ batch⟩

/-- The exit condition of the `run_systems` loop. -/
def loopDone (s : UnorderedSchedulerSystem) : Prop :=
  s.queued = [] ∧ s.running = []

/-- Acyclicity of the depends-on relation, witnessed by a ranking: a dependee's rank is
strictly below every dependant's rank. -/
def Acyclic (cs : List (Nat × SchedulerSystemContainer)) : Prop :=
  ∃ rank : Nat → Nat, ∀ a ∈ keysOf cs, ∀ t ∈ dependantsOf cs a, rank a < rank t

/-- A dependency cycle: a nonempty list of ids in which each entry depends on the next
(cyclically). -/
def CycleIn (cs : List (Nat × SchedulerSystemContainer)) (l : List Nat) : Prop :=
  l ≠ [] ∧ ∀ i, i < l.length → l.getD i 0 ∈ dependantsOf cs (l.getD ((i + 1) % l.length) 0)

/-- The inductive invariant of the orchestrator loop, relating the scheduler state to the
ghost history of processed completions. -/
structure SchedInv (r : RunState) : Prop where
  graphWF : GraphWF r.sched.system_containers
  queued_keys : ∀ t ∈ r.sched.queued, t ∈ keysOf r.sched.system_containers
  running_keys : ∀ t ∈ r.sched.running, t ∈ keysOf r.sched.system_containers
  finished_keys : ∀ t ∈ r.finished, t ∈ keysOf r.sched.system_containers
  scratch_keys : ∀ t ∈ r.sched.dependants_scratch, t ∈ keysOf r.sched.system_containers
  queued_nodup : r.sched.queued.Nodup
  running_nodup : r.sched.running.Nodup
  finished_nodup : r.finished.Nodup
  queued_not_running : ∀ t ∈ r.sched.queued, t ∉ r.sched.running
  queued_not_finished : ∀ t ∈ r.sched.queued, t ∉ r.finished
  running_not_finished : ∀ t ∈ r.sched.running, t ∉ r.finished
  counter : ∀ t, depsNowOf r.sched.system_containers t
      + finDeps r.sched.system_containers r.finished t
      = depsTotalOf r.sched.system_containers t + r.sched.dependants_scratch.count t
  scratch_le : ∀ t, r.sched.dependants_scratch.count t
      ≤ finDeps r.sched.system_containers r.finished t
  active_zero : ∀ t, (t ∈ r.sched.queued ∨ t ∈ r.sched.running ∨ t ∈ r.finished) →
      depsNowOf r.sched.system_containers t = 0
  zero_active : ∀ t ∈ keysOf r.sched.system_containers,
      depsNowOf r.sched.system_containers t = 0 →
      (t ∈ r.sched.queued ∨ t ∈ r.sched.running ∨ t ∈ r.finished)

/-- An empty access set, used by concrete witness states. -/
def accessNone : Access := { reads := [], writes := [] }

/-- A concrete container with no dependencies, used by witness states. -/
def sampleContainer : SchedulerSystemContainer :=
  { resource_access := accessNone, archetype_access := accessNone,
    dependants := [], deps_total := 0, deps_now := 0 }

/-- A concrete one-system scheduler state, used by witness states. -/
def sampleSched : UnorderedSchedulerSystem :=
  { last_archetypes_generation := 0, system_containers := [(0, sampleContainer)],
    queued := [], running := [], dependants_scratch := [] }

/-- A concrete world, used by witness states. -/
def sampleWorld : World :=
  { archetypes_generation := 0, archetype_access_of := fun _ => accessNone }


/-- The generic admission fold: walk `q`, admitting each id that `can_start_now` accepts
against the running set accumulated so far. -/
def admissionFold (cs : List (Nat × SchedulerSystemContainer)) (q r : List Nat) : List Nat :=
  q.foldl (fun acc id => if canStartNowWith cs acc id then insertRunning acc id else acc) r


/-- A concrete container (task 0) whose completion unblocks task 1, for witnesses. -/
def depContainerA : SchedulerSystemContainer :=
  { resource_access := accessNone, archetype_access := accessNone,
    dependants := [1], deps_total := 0, deps_now := 0 }

/-- A concrete container (task 1) with one outstanding dependency, for witnesses. -/
def depContainerB : SchedulerSystemContainer :=
  { resource_access := accessNone, archetype_access := accessNone,
    dependants := [], deps_total := 1, deps_now := 1 }

/-- A concrete two-task scheduler state (0 running, 1 blocked on 0), for witnesses. -/
def depSched : UnorderedSchedulerSystem :=
  { last_archetypes_generation := 0,
    system_containers := [(0, depContainerA), (1, depContainerB)],
    queued := [], running := [0], dependants_scratch := [] }


/-- A concrete two-task graph state at rest (nothing queued or running): task 1 depends
on task 0.  Used by witnesses of the loop-level claims. -/
def graphSched : UnorderedSchedulerSystem :=
  { last_archetypes_generation := 0,
    system_containers := [(0, depContainerA), (1, depContainerB)],
    queued := [], running := [], dependants_scratch := [] }


/-- A concrete boxed system for builder witnesses. -/
def sysA : BoxedSystem :=
  { sysName := "sysA", sysId := 0,
    resource_access := accessNone, archetype_access := accessNone }

/-- Another concrete boxed system for builder witnesses. -/
def sysB : BoxedSystem :=
  { sysName := "sysB", sysId := 1,
    resource_access := accessNone, archetype_access := accessNone }


/-- The builder of the C4 counterexample: systems registered under the user-given names
"A" and "B", with "B" declaring a dependency on the registered name "A". -/
def bCex : UnorderedScheduler :=
  (depends_on (add_named_system (add_named_system UnorderedScheduler.new "A" sysA)
    "B" sysB) "A").getD UnorderedScheduler.new

/-- A builder whose dependency name matches a system's self-reported name, so that
finalization succeeds. -/
def bGood : UnorderedScheduler :=
  (depends_on (add_system (add_system UnorderedScheduler.new sysA) sysB)
    "sysA").getD UnorderedScheduler.new


/-- Lookup in the label table of the pipeline. -/
def tableLookup (tbl : List (Nat × Nat)) (label : Nat) : Option Nat :=
  match tbl.find? (fun p => p.1 == label) with
  | some p => some p.2
  | none => none

/-- A concrete two-stage pipeline used to exercise the `Schedule` operations. -/
def sampleSchedule : Schedule :=
  { stages := [10, 20], index_table := [(0, 0), (1, 1)] }


theorem lookupC_nil (id : Nat) : lookupC [] id = none := rfl

theorem lookupC_cons (hd : Nat × SchedulerSystemContainer) (tl : List (Nat × SchedulerSystemContainer)) (id : Nat) :
    lookupC (hd :: tl) id = if hd.1 = id then some hd.2 else lookupC tl id := by
  simp only [lookupC, List.find?]
  by_cases h : hd.1 = id
  · simp [h]
  · simp [h, beq_eq_false_iff_ne.mpr h]

theorem lookupC_isSome_iff_mem (cs : List (Nat × SchedulerSystemContainer)) (id : Nat) :
    (lookupC cs id).isSome ↔ id ∈ keysOf cs := by
  induction cs with
  | nil => simp [lookupC_nil, keysOf]
  | cons hd tl ih =>
    rw [lookupC_cons]
    by_cases h : hd.1 = id
    · simp [h, keysOf]
    · simpa [keysOf, h, Ne.symm h] using ih

theorem lookupC_eq_some_mem (cs : List (Nat × SchedulerSystemContainer)) (id : Nat)
    (c : SchedulerSystemContainer) (h : lookupC cs id = some c) : (id, c) ∈ cs := by
  induction cs with
  | nil => simp [lookupC_nil] at h
  | cons hd tl ih =>
    rw [lookupC_cons] at h
    by_cases hh : hd.1 = id
    · simp only [hh, if_pos rfl] at h
      obtain rfl : hd.2 = c := by injection h
      have he : (id, hd.2) = hd := by rw [← hh]
      rw [he]
      exact List.mem_cons_self hd tl
    · simp only [if_neg hh] at h
      exact List.mem_cons_of_mem _ (ih h)

theorem mem_lookupC_eq_some (cs : List (Nat × SchedulerSystemContainer)) (id : Nat)
    (c : SchedulerSystemContainer) (hnd : (keysOf cs).Nodup) (h : (id, c) ∈ cs) :
    lookupC cs id = some c := by
  induction cs with
  | nil => simp at h
  | cons hd tl ih =>
    simp only [keysOf, List.map_cons, List.nodup_cons] at hnd
    rw [lookupC_cons]
    rcases List.mem_cons.mp h with h1 | h1
    · subst h1; simp
    · have hne : hd.1 ≠ id := by
        intro he
        exact hnd.1 (he ▸ (List.mem_map.mpr ⟨(id, c), h1, rfl⟩))
      rw [if_neg hne]
      exact ih hnd.2 h1

theorem mem_keys_exists_lookupC (cs : List (Nat × SchedulerSystemContainer)) (id : Nat)
    (h : id ∈ keysOf cs) : ∃ c, lookupC cs id = some c := by
  have := (lookupC_isSome_iff_mem cs id).mpr h
  cases hc : lookupC cs id with
  | none => rw [hc] at this; simp at this
  | some c => exact ⟨c, rfl⟩

theorem lookupC_map_val (cs : List (Nat × SchedulerSystemContainer))
    (f : Nat → SchedulerSystemContainer → SchedulerSystemContainer) (id : Nat) :
    lookupC (cs.map (fun p => (p.1, f p.1 p.2))) id = (lookupC cs id).map (f id) := by
  induction cs with
  | nil => rfl
  | cons hd tl ih =>
    simp only [List.map_cons]
    rw [lookupC_cons, lookupC_cons]
    by_cases h : hd.1 = id
    · simp [h]
    · simp [h, ih]

theorem keysOf_map_val (cs : List (Nat × SchedulerSystemContainer))
    (f : Nat → SchedulerSystemContainer → SchedulerSystemContainer) :
    keysOf (cs.map (fun p => (p.1, f p.1 p.2))) = keysOf cs := by
  simp [keysOf, List.map_map, Function.comp]

theorem lookupC_pointwise (cs : List (Nat × SchedulerSystemContainer)) (id t : Nat)
    (g : SchedulerSystemContainer → SchedulerSystemContainer) :
    lookupC (cs.map (fun p => if p.1 = id then (p.1, g p.2) else p)) t =
      if t = id then (lookupC cs t).map g else lookupC cs t := by
  induction cs with
  | nil => by_cases h : t = id <;> simp [lookupC_nil, h]
  | cons hd tl ih =>
    simp only [List.map_cons]
    by_cases hh : hd.1 = id
    · rw [if_pos hh, lookupC_cons]
      by_cases ht : t = id
      · subst ht
        rw [if_pos rfl, lookupC_cons, if_pos hh]
        simp only [if_pos hh]
        rw [if_pos rfl] at ih
        simp [ih]
      · rw [if_neg ht, lookupC_cons]
        have hne : hd.1 ≠ t := by rw [hh]; exact fun he => ht he.symm
        simp only [if_neg hne]
        rw [if_neg ht] at ih
        exact ih
    · rw [if_neg hh, lookupC_cons, lookupC_cons]
      by_cases hht : hd.1 = t
      · have hti : t ≠ id := fun he => hh (hht.trans he)
        rw [if_pos hht, if_pos hht, if_neg hti]
      · rw [if_neg hht, if_neg hht, ih]

theorem keysOf_pointwise (cs : List (Nat × SchedulerSystemContainer)) (id : Nat)
    (g : SchedulerSystemContainer → SchedulerSystemContainer) :
    keysOf (cs.map (fun p => if p.1 = id then (p.1, g p.2) else p)) = keysOf cs := by
  simp only [keysOf, List.map_map]
  apply List.map_congr_left
  intro p _
  by_cases h : p.1 = id <;> simp [h]

theorem mem_seedQueue (cs : List (Nat × SchedulerSystemContainer)) (id : Nat) :
    id ∈ cs.filterMap (fun p => if p.2.deps_now = 0 then some p.1 else none) ↔
      ∃ c, (id, c) ∈ cs ∧ c.deps_now = 0 := by
  rw [List.mem_filterMap]
  constructor
  · rintro ⟨p, hp, he⟩
    by_cases h : p.2.deps_now = 0
    · rw [if_pos h] at he
      obtain rfl : p.1 = id := by injection he
      exact ⟨p.2, by simpa using hp, h⟩
    · rw [if_neg h] at he; cases he
  · rintro ⟨c, hc, h0⟩
    exact ⟨(id, c), hc, by simp [h0]⟩

theorem prepare_of_gen_eq (s : UnorderedSchedulerSystem) (w : World)
    (h : s.last_archetypes_generation = w.archetypes_generation) :
    prepare s w =
      { s with
        system_containers :=
          s.system_containers.map (fun p => (p.1, { p.2 with deps_now := p.2.deps_total })),
        queued := s.queued ++
          (s.system_containers.map
            (fun p => (p.1, { p.2 with deps_now := p.2.deps_total }))).filterMap
            (fun p => if p.2.deps_now = 0 then some p.1 else none) } := by
  unfold prepare
  rw [if_pos (beq_iff_eq.mpr h)]

theorem prepare_of_gen_ne (s : UnorderedSchedulerSystem) (w : World)
    (h : s.last_archetypes_generation ≠ w.archetypes_generation) :
    prepare s w =
      { s with
        system_containers :=
          s.system_containers.map (fun p =>
            (p.1, { p.2 with deps_now := p.2.deps_total,
                             archetype_access := w.archetype_access_of p.1 })),
        queued := s.queued ++
          (s.system_containers.map (fun p =>
            (p.1, { p.2 with deps_now := p.2.deps_total,
                             archetype_access := w.archetype_access_of p.1 }))).filterMap
            (fun p => if p.2.deps_now = 0 then some p.1 else none),
        last_archetypes_generation := w.archetypes_generation } := by
  unfold prepare
  rw [if_neg (by simpa using h)]

/-- Claim C5: after `prepare` returns, every task container's `deps_now` equals its
`deps_total`, and the `queued` list contains exactly the identifiers of those tasks whose
`deps_now` is zero (equivalently, whose `deps_total` is zero); this holds for every graph
and every world, hence in both the generation-unchanged and the generation-changed
branch. -/
theorem c5_prepare_resets_and_seeds (s : UnorderedSchedulerSystem) (w : World)
    (hq : s.queued = []) :
    (∀ p ∈ (prepare s w).system_containers, p.2.deps_now = p.2.deps_total) ∧
    (∀ id, id ∈ (prepare s w).queued ↔
      ∃ c, (id, c) ∈ (prepare s w).system_containers ∧ c.deps_now = 0) ∧
    (∀ id, id ∈ (prepare s w).queued ↔
      ∃ c, (id, c) ∈ (prepare s w).system_containers ∧ c.deps_total = 0) := by
  have hcont : ∀ p ∈ (prepare s w).system_containers, p.2.deps_now = p.2.deps_total := by
    intro p hp
    by_cases hg : s.last_archetypes_generation = w.archetypes_generation
    · rw [prepare_of_gen_eq s w hg] at hp
      obtain ⟨q, _, rfl⟩ := List.mem_map.mp hp
      rfl
    · rw [prepare_of_gen_ne s w hg] at hp
      obtain ⟨q, _, rfl⟩ := List.mem_map.mp hp
      rfl
  have hqueue : (prepare s w).queued = (prepare s w).system_containers.filterMap
      (fun p => if p.2.deps_now = 0 then some p.1 else none) := by
    by_cases hg : s.last_archetypes_generation = w.archetypes_generation
    · rw [prepare_of_gen_eq s w hg]
      simp [hq]
    · rw [prepare_of_gen_ne s w hg]
      simp [hq]
  refine ⟨hcont, ?_, ?_⟩
  · intro id
    rw [hqueue, mem_seedQueue]
  · intro id
    rw [hqueue, mem_seedQueue]
    constructor
    · rintro ⟨c, hm, h0⟩
      exact ⟨c, hm, by rw [← hcont (id, c) hm]; exact h0⟩
    · rintro ⟨c, hm, h0⟩
      exact ⟨c, hm, by rw [hcont (id, c) hm]; exact h0⟩

theorem c5_witness :
    (∀ p ∈ (prepare sampleSched sampleWorld).system_containers,
      p.2.deps_now = p.2.deps_total) ∧
    (∀ id, id ∈ (prepare sampleSched sampleWorld).queued ↔
      ∃ c, (id, c) ∈ (prepare sampleSched sampleWorld).system_containers ∧
        c.deps_now = 0) ∧
    (∀ id, id ∈ (prepare sampleSched sampleWorld).queued ↔
      ∃ c, (id, c) ∈ (prepare sampleSched sampleWorld).system_containers ∧
        c.deps_total = 0) :=
  c5_prepare_resets_and_seeds sampleSched sampleWorld rfl

theorem accessesOf_map_val (cs : List (Nat × SchedulerSystemContainer))
    (f : Nat → SchedulerSystemContainer → SchedulerSystemContainer)
    (hf : ∀ id c, (f id c).resource_access = c.resource_access ∧
      (f id c).archetype_access = c.archetype_access) :
    accessesOf (cs.map (fun p => (p.1, f p.1 p.2))) = accessesOf cs := by
  simp only [accessesOf, List.map_map]
  apply List.map_congr_left
  intro p _
  simp [Function.comp, (hf p.1 p.2).1, (hf p.1 p.2).2]

theorem accessesOf_pointwise (cs : List (Nat × SchedulerSystemContainer)) (id : Nat)
    (g : SchedulerSystemContainer → SchedulerSystemContainer)
    (hg : ∀ c, (g c).resource_access = c.resource_access ∧
      (g c).archetype_access = c.archetype_access) :
    accessesOf (cs.map (fun p => if p.1 = id then (p.1, g p.2) else p)) = accessesOf cs := by
  simp only [accessesOf, List.map_map]
  apply List.map_congr_left
  intro p _
  by_cases h : p.1 = id <;> simp [h, (hg p.2).1, (hg p.2).2]

theorem drainStep_of_none (cs : List (Nat × SchedulerSystemContainer)) (q : List Nat)
    (a : Nat) (h : lookupC cs a = none) : drainStep (cs, q) a = (cs, q) := by
  unfold drainStep
  rw [h]

theorem drainStep_of_some (cs : List (Nat × SchedulerSystemContainer)) (q : List Nat)
    (a : Nat) (c : SchedulerSystemContainer) (h : lookupC cs a = some c) :
    drainStep (cs, q) a =
      (cs.map (fun p => if p.1 = a then (p.1, { p.2 with deps_now := p.2.deps_now - 1 }) else p),
       if c.deps_now - 1 = 0 then q ++ [a] else q) := by
  unfold drainStep
  rw [h]

theorem drain_accessesOf (L : List Nat) (cs : List (Nat × SchedulerSystemContainer))
    (q : List Nat) : accessesOf (L.foldl drainStep (cs, q)).1 = accessesOf cs := by
  induction L generalizing cs q with
  | nil => rfl
  | cons a L ih =>
    rw [List.foldl_cons]
    cases h : lookupC cs a with
    | none => rw [drainStep_of_none cs q a h]; exact ih cs q
    | some c =>
      rw [drainStep_of_some cs q a c h, ih]
      exact accessesOf_pointwise cs a
        (fun c' => { c' with deps_now := c'.deps_now - 1 }) (fun c' => ⟨rfl, rfl⟩)

theorem drain_keysOf (L : List Nat) (cs : List (Nat × SchedulerSystemContainer))
    (q : List Nat) : keysOf (L.foldl drainStep (cs, q)).1 = keysOf cs := by
  induction L generalizing cs q with
  | nil => rfl
  | cons a L ih =>
    rw [List.foldl_cons]
    cases h : lookupC cs a with
    | none => rw [drainStep_of_none cs q a h]; exact ih cs q
    | some c =>
      rw [drainStep_of_some cs q a c h, ih]
      exact keysOf_pointwise cs a (fun c' => { c' with deps_now := c'.deps_now - 1 })

/-- Claim C7: during `prepare` every task's archetype access is recomputed iff the cached
generation differs from the world's; in that case the cache is set to the world's
generation, otherwise cache and access sets are unchanged; after `prepare` the cache
equals the world's generation, and two consecutive runs with an unchanged world recompute
access sets at most once (the second `prepare` leaves the access sets unchanged, and the
loop's own operations never touch access sets or the cached generation). -/
theorem c7_generation_cache (s : UnorderedSchedulerSystem) (w : World) :
    ((prepare s w).last_archetypes_generation = w.archetypes_generation) ∧
    (s.last_archetypes_generation = w.archetypes_generation →
      accessesOf (prepare s w).system_containers = accessesOf s.system_containers ∧
      (prepare s w).last_archetypes_generation = s.last_archetypes_generation) ∧
    (s.last_archetypes_generation ≠ w.archetypes_generation →
      (prepare s w).system_containers = s.system_containers.map (fun p =>
        (p.1, { p.2 with deps_now := p.2.deps_total,
                         archetype_access := w.archetype_access_of p.1 }))) ∧
    (accessesOf (prepare (prepare s w) w).system_containers
      = accessesOf (prepare s w).system_containers) ∧
    (∀ s' : UnorderedSchedulerSystem, ∀ id : Nat,
      accessesOf (start_all_runnable_queued_systems s').system_containers
        = accessesOf s'.system_containers ∧
      accessesOf (process_finished_system s' id).system_containers
        = accessesOf s'.system_containers ∧
      accessesOf (update_counters_and_queue_systems s').system_containers
        = accessesOf s'.system_containers ∧
      (start_all_runnable_queued_systems s').last_archetypes_generation
        = s'.last_archetypes_generation ∧
      (process_finished_system s' id).last_archetypes_generation
        = s'.last_archetypes_generation ∧
      (update_counters_and_queue_systems s').last_archetypes_generation
        = s'.last_archetypes_generation) := by
  have hgen : ∀ s' : UnorderedSchedulerSystem,
      (prepare s' w).last_archetypes_generation = w.archetypes_generation := by
    intro s'
    by_cases hg : s'.last_archetypes_generation = w.archetypes_generation
    · rw [prepare_of_gen_eq s' w hg]; exact hg
    · rw [prepare_of_gen_ne s' w hg]
  have hsame : ∀ s' : UnorderedSchedulerSystem,
      s'.last_archetypes_generation = w.archetypes_generation →
      accessesOf (prepare s' w).system_containers = accessesOf s'.system_containers := by
    intro s' hg
    rw [prepare_of_gen_eq s' w hg]
    exact accessesOf_map_val s'.system_containers
      (fun id c => { c with deps_now := c.deps_total }) (fun id c => ⟨rfl, rfl⟩)
  refine ⟨hgen s, ?_, ?_, ?_, ?_⟩
  · intro hg
    refine ⟨hsame s hg, ?_⟩
    rw [hgen s, hg]
  · intro hg
    rw [prepare_of_gen_ne s w hg]
  · exact hsame (prepare s w) (hgen s)
  · intro s' id
    refine ⟨rfl, ?_, ?_, rfl, ?_, rfl⟩
    · unfold process_finished_system
      cases lookupC s'.system_containers id <;> rfl
    · unfold update_counters_and_queue_systems
      exact drain_accessesOf _ _ _
    · unfold process_finished_system
      cases lookupC s'.system_containers id <;> rfl

theorem c7_witness :
    accessesOf (prepare sampleSched sampleWorld).system_containers
      = accessesOf sampleSched.system_containers :=
  ((c7_generation_cache sampleSched sampleWorld).2.1 rfl).1

theorem is_compatible_comm (a b : Access) : a.is_compatible b = b.is_compatible a := by
  unfold Access.is_compatible
  exact Bool.and_comm _ _

theorem compatPair_comm (cs : List (Nat × SchedulerSystemContainer)) (a b : Nat) :
    compatPair cs a b = compatPair cs b a := by
  unfold compatPair
  cases lookupC cs a <;> cases lookupC cs b <;> simp [is_compatible_comm]

theorem canStartNowWith_spec (cs : List (Nat × SchedulerSystemContainer)) (r : List Nat)
    (id : Nat) (h : canStartNowWith cs r id = true) :
    (lookupC cs id).isSome = true ∧ ∀ rid ∈ r, compatPair cs id rid = true := by
  unfold canStartNowWith at h
  cases hc : lookupC cs id with
  | none => rw [hc] at h; cases h
  | some c =>
    rw [hc] at h
    refine ⟨rfl, ?_⟩
    intro rid hrid
    have hall := List.all_eq_true.mp h rid hrid
    unfold compatPair
    rw [hc]
    cases ho : lookupC cs rid with
    | none => rw [ho] at hall; cases hall
    | some o => rw [ho] at hall; exact hall

theorem runningAfterPass_eq (s : UnorderedSchedulerSystem) (q : List Nat) :
    runningAfterPass s q = admissionFold s.system_containers q s.running := rfl

theorem admissionFold_inv (cs : List (Nat × SchedulerSystemContainer)) (q : List Nat) :
    ∀ r : List Nat, (∀ t ∈ r, t ∈ keysOf cs) → pairwiseCompatibleOn cs r →
    (∀ t ∈ admissionFold cs q r, t ∈ keysOf cs) ∧
    pairwiseCompatibleOn cs (admissionFold cs q r) ∧
    (∀ t ∈ r, t ∈ admissionFold cs q r) ∧
    (∀ t ∈ admissionFold cs q r, t ∈ r ∨ t ∈ q) ∧
    (r.Nodup → (admissionFold cs q r).Nodup) := by
  induction q with
  | nil =>
    intro r h1 h2
    exact ⟨h1, h2, fun t ht => ht, fun t ht => Or.inl ht, fun h => h⟩
  | cons a q ih =>
    intro r h1 h2
    have hfold : admissionFold cs (a :: q) r =
        admissionFold cs q (if canStartNowWith cs r a then insertRunning r a else r) := rfl
    by_cases hc : canStartNowWith cs r a
    · obtain ⟨hsome, hcompat⟩ := canStartNowWith_spec cs r a hc
      by_cases hmem : a ∈ r
      · have hins : insertRunning r a = r := by
          unfold insertRunning
          rw [if_pos (by simpa using hmem)]
        rw [hfold, if_pos hc, hins]
        obtain ⟨k1, k2, k3, k4, k5⟩ := ih r h1 h2
        exact ⟨k1, k2, k3, fun t ht => (k4 t ht).imp id (List.mem_cons_of_mem a), k5⟩
      · have hins : insertRunning r a = a :: r := by
          unfold insertRunning
          rw [if_neg (by simpa using hmem)]
        have h1' : ∀ t ∈ a :: r, t ∈ keysOf cs := by
          intro t ht
          rcases List.mem_cons.mp ht with rfl | ht'
          · exact (lookupC_isSome_iff_mem cs t).mp hsome
          · exact h1 t ht'
        have h2' : pairwiseCompatibleOn cs (a :: r) := by
          intro x hx y hy hxy
          rcases List.mem_cons.mp hx with rfl | hx'
          · rcases List.mem_cons.mp hy with rfl | hy'
            · exact absurd rfl hxy
            · exact hcompat y hy'
          · rcases List.mem_cons.mp hy with rfl | hy'
            · rw [compatPair_comm]; exact hcompat x hx'
            · exact h2 x hx' y hy' hxy
        rw [hfold, if_pos hc, hins]
        obtain ⟨k1, k2, k3, k4, k5⟩ := ih (a :: r) h1' h2'
        refine ⟨k1, k2, fun t ht => k3 t (List.mem_cons_of_mem a ht), ?_, ?_⟩
        · intro t ht
          rcases k4 t ht with h | h
          · rcases List.mem_cons.mp h with h' | h'
            · exact Or.inr (h' ▸ List.mem_cons_self a q)
            · exact Or.inl h'
          · exact Or.inr (List.mem_cons_of_mem a h)
        · intro hnd
          exact k5 (List.nodup_cons.mpr ⟨hmem, hnd⟩)
    · rw [hfold, if_neg hc]
      obtain ⟨k1, k2, k3, k4, k5⟩ := ih r h1 h2
      exact ⟨k1, k2, k3, fun t ht => (k4 t ht).imp id (List.mem_cons_of_mem a), k5⟩

theorem drain_lookupC (L : List Nat) (cs : List (Nat × SchedulerSystemContainer))
    (q : List Nat) (t : Nat) :
    lookupC ((L.foldl drainStep (cs, q)).1) t
      = (lookupC cs t).map (fun c => { c with deps_now := c.deps_now - L.count t }) := by
  induction L generalizing cs q with
  | nil =>
    simp only [List.foldl_nil, List.count_nil]
    cases h : lookupC cs t <;> simp
  | cons a L ih =>
    rw [List.foldl_cons]
    cases h : lookupC cs a with
    | none =>
      rw [drainStep_of_none cs q a h, ih]
      by_cases ht : t = a
      · subst ht
        rw [h]
        rfl
      · have hcnt : (a :: L).count t = L.count t := by
          rw [List.count_cons]
          simp [ht, Ne.symm ht]
        rw [hcnt]
    | some c =>
      rw [drainStep_of_some cs q a c h, ih,
        lookupC_pointwise cs a t (fun c' => { c' with deps_now := c'.deps_now - 1 })]
      by_cases ht : t = a
      · subst ht
        rw [if_pos rfl, h]
        have harith : c.deps_now - 1 - L.count t = c.deps_now - (t :: L).count t := by
          have hcnt : (t :: L).count t = L.count t + 1 := List.count_cons_self t L
          omega
        simp [harith]
      · rw [if_neg ht]
        have hcnt : (a :: L).count t = L.count t := by
          rw [List.count_cons]
          simp [ht, Ne.symm ht]
        rw [hcnt]

theorem prepare_misc (s : UnorderedSchedulerSystem) (w : World) :
    (prepare s w).running = s.running ∧
    (prepare s w).dependants_scratch = s.dependants_scratch := by
  by_cases hg : s.last_archetypes_generation = w.archetypes_generation
  · rw [prepare_of_gen_eq s w hg]; exact ⟨rfl, rfl⟩
  · rw [prepare_of_gen_ne s w hg]; exact ⟨rfl, rfl⟩

theorem process_containers (s : UnorderedSchedulerSystem) (id : Nat) :
    (process_finished_system s id).system_containers = s.system_containers := by
  unfold process_finished_system
  cases lookupC s.system_containers id <;> rfl

theorem process_running (s : UnorderedSchedulerSystem) (id : Nat) :
    (process_finished_system s id).running = s.running.filter (fun x => !(x == id)) := by
  unfold process_finished_system
  cases lookupC s.system_containers id <;> rfl

theorem process_queued (s : UnorderedSchedulerSystem) (id : Nat) :
    (process_finished_system s id).queued = s.queued := by
  unfold process_finished_system
  cases lookupC s.system_containers id <;> rfl

theorem process_scratch (s : UnorderedSchedulerSystem) (id : Nat) (c : SchedulerSystemContainer)
    (h : lookupC s.system_containers id = some c) :
    (process_finished_system s id).dependants_scratch
      = s.dependants_scratch ++ c.dependants := by
  unfold process_finished_system
  rw [h]

theorem update_containers (s : UnorderedSchedulerSystem) :
    (update_counters_and_queue_systems s).system_containers
      = (s.dependants_scratch.foldl drainStep (s.system_containers, s.queued)).1 := rfl

theorem update_queued (s : UnorderedSchedulerSystem) :
    (update_counters_and_queue_systems s).queued
      = (s.dependants_scratch.foldl drainStep (s.system_containers, s.queued)).2 := rfl

theorem keysOf_update (s : UnorderedSchedulerSystem) :
    keysOf (update_counters_and_queue_systems s).system_containers
      = keysOf s.system_containers := by
  rw [update_containers]
  exact drain_keysOf _ _ _

theorem compatPair_update (s : UnorderedSchedulerSystem) (a b : Nat) :
    compatPair (update_counters_and_queue_systems s).system_containers a b
      = compatPair s.system_containers a b := by
  rw [update_containers]
  unfold compatPair
  rw [drain_lookupC, drain_lookupC]
  cases lookupC s.system_containers a <;> cases lookupC s.system_containers b <;> rfl

/-- Claim C1: in every state reachable during a run of the scheduler loop, the running
set is pairwise compatible — for every two distinct identifiers simultaneously in
`running`, both their resource access sets and their archetype access sets are
compatible; and the same already holds for the running set as extended by the admissions
of any prefix of the queue during an admission pass, because `can_start_now` checks each
candidate against the running set as extended by earlier admissions of the same pass. -/
theorem c1_conflict_exclusion (s0 : UnorderedSchedulerSystem) (w : World) (r : RunState)
    (hrun : s0.running = []) (hreach : LoopReach (initialState s0 w) r) :
    pairwiseCompatible r.sched ∧
    ∀ qpre qsuf, r.sched.queued = qpre ++ qsuf →
      pairwiseCompatibleOn r.sched.system_containers
        (admissionFold r.sched.system_containers qpre r.sched.running) := by
  have main : (∀ t ∈ r.sched.running, t ∈ keysOf r.sched.system_containers) ∧
      pairwiseCompatible r.sched := by
    induction hreach with
    | refl =>
      have hr : (initialState s0 w).sched.running = [] := by
        show (prepare s0 w).running = []
        rw [(prepare_misc s0 w).1, hrun]
      constructor
      · intro t ht; rw [hr] at ht; cases ht
      · intro a ha; rw [hr] at ha; cases ha
    | tail hsteps hstep ih =>
      cases hstep with
      | start s fin =>
        obtain ⟨ihk, ihp⟩ := ih
        have h := admissionFold_inv s.system_containers s.queued s.running ihk ihp
        exact ⟨h.1, h.2.1⟩
      | finish s fin id hid =>
        obtain ⟨ihk, ihp⟩ := ih
        constructor
        · intro t ht
          rw [process_running] at ht
          rw [process_containers]
          exact ihk t (List.mem_filter.mp ht).1
        · intro a ha b hb hab
          rw [process_running] at ha hb
          rw [process_containers]
          exact ihp a (List.mem_filter.mp ha).1 b (List.mem_filter.mp hb).1 hab
      | update s fin =>
        obtain ⟨ihk, ihp⟩ := ih
        constructor
        · intro t ht
          rw [keysOf_update]
          exact ihk t ht
        · intro a ha b hb hab
          rw [compatPair_update]
          exact ihp a ha b hb hab
  refine ⟨main.2, ?_⟩
  intro qpre qsuf hsplit
  exact (admissionFold_inv r.sched.system_containers qpre r.sched.running main.1 main.2).2.1

theorem c1_witness :
    pairwiseCompatible (initialState sampleSched sampleWorld).sched ∧
    ∀ qpre qsuf, (initialState sampleSched sampleWorld).sched.queued = qpre ++ qsuf →
      pairwiseCompatibleOn (initialState sampleSched sampleWorld).sched.system_containers
        (admissionFold (initialState sampleSched sampleWorld).sched.system_containers qpre
          (initialState sampleSched sampleWorld).sched.running) :=
  c1_conflict_exclusion sampleSched sampleWorld (initialState sampleSched sampleWorld) rfl
    Relation.ReflTransGen.refl

theorem sum_map_le_of_nodup_subset (f : Nat → Nat) :
    ∀ l l' : List Nat, l.Nodup → l ⊆ l' → (l.map f).sum ≤ (l'.map f).sum := by
  intro l
  induction l with
  | nil => intro l' _ _; exact Nat.zero_le _
  | cons a ls ih =>
    intro l' hnd hsub
    have hal' : a ∈ l' := hsub (List.mem_cons_self a ls)
    have hnd' := List.nodup_cons.mp hnd
    have hsub' : ls ⊆ l'.erase a := by
      intro x hx
      have hxa : x ≠ a := fun he => hnd'.1 (by rw [← he]; exact hx)
      exact (List.mem_erase_of_ne hxa).mpr (hsub (List.mem_cons_of_mem a hx))
    have hperm : List.Perm l' (a :: l'.erase a) := List.perm_cons_erase hal'
    have hsum : (l'.map f).sum = f a + ((l'.erase a).map f).sum := by
      rw [(hperm.map f).sum_eq]
      simp
    rw [hsum]
    simp only [List.map_cons, List.sum_cons]
    exact Nat.add_le_add_left (ih (l'.erase a) hnd'.2 hsub') (f a)

theorem sum_map_eq_of_cover (f : Nat → Nat) :
    ∀ l l' : List Nat, l.Nodup → l ⊆ l' → l'.Nodup →
      (∀ x ∈ l', x ∉ l → f x = 0) → (l.map f).sum = (l'.map f).sum := by
  intro l
  induction l with
  | nil =>
    intro l' _ _ _ hzero
    symm
    apply List.sum_eq_zero
    intro x hx
    obtain ⟨y, hy, rfl⟩ := List.mem_map.mp hx
    exact hzero y hy (List.not_mem_nil y)
  | cons a ls ih =>
    intro l' hnd hsub hnd' hzero
    have hal' : a ∈ l' := hsub (List.mem_cons_self a ls)
    have hndc := List.nodup_cons.mp hnd
    have hsub' : ls ⊆ l'.erase a := by
      intro x hx
      have hxa : x ≠ a := fun he => hndc.1 (by rw [← he]; exact hx)
      exact (List.mem_erase_of_ne hxa).mpr (hsub (List.mem_cons_of_mem a hx))
    have hperm : List.Perm l' (a :: l'.erase a) := List.perm_cons_erase hal'
    have hsum : (l'.map f).sum = f a + ((l'.erase a).map f).sum := by
      rw [(hperm.map f).sum_eq]
      simp
    have hzero' : ∀ x ∈ l'.erase a, x ∉ ls → f x = 0 := by
      intro x hx hxls
      have hxl' : x ∈ l' := List.mem_of_mem_erase hx
      have hxa : x ≠ a := (List.Nodup.mem_erase_iff hnd').mp hx |>.1
      exact hzero x hxl' (fun hc => absurd (List.mem_cons.mp hc) (by simp [hxa, hxls]))
    have herase_nd : (l'.erase a).Nodup := hnd'.erase a
    rw [hsum]
    simp only [List.map_cons, List.sum_cons]
    rw [ih (l'.erase a) hndc.2 hsub' herase_nd hzero']

theorem depCount_eq_sum_keys (cs : List (Nat × SchedulerSystemContainer)) (t : Nat)
    (hnd : (keysOf cs).Nodup) :
    ((keysOf cs).map (fun a => (dependantsOf cs a).count t)).sum = depCount cs t := by
  unfold depCount keysOf
  rw [List.map_map]
  congr 1
  apply List.map_congr_left
  intro p hp
  simp only [Function.comp]
  unfold dependantsOf
  rw [mem_lookupC_eq_some cs p.1 p.2 hnd (by simpa using hp)]

theorem finDeps_le_depCount (cs : List (Nat × SchedulerSystemContainer)) (fin : List Nat)
    (t : Nat) (hnd : (keysOf cs).Nodup) (hfnd : fin.Nodup)
    (hsub : ∀ a ∈ fin, a ∈ keysOf cs) : finDeps cs fin t ≤ depCount cs t := by
  unfold finDeps
  rw [← depCount_eq_sum_keys cs t hnd]
  exact sum_map_le_of_nodup_subset _ fin (keysOf cs) hfnd hsub

theorem finDeps_cons (cs : List (Nat × SchedulerSystemContainer)) (fin : List Nat)
    (a t : Nat) :
    finDeps cs (a :: fin) t = (dependantsOf cs a).count t + finDeps cs fin t := by
  unfold finDeps
  simp

theorem finDeps_append_one (cs : List (Nat × SchedulerSystemContainer)) (fin : List Nat)
    (a t : Nat) :
    finDeps cs (fin ++ [a]) t = finDeps cs fin t + (dependantsOf cs a).count t := by
  unfold finDeps
  simp

theorem finDeps_add_le_depCount (cs : List (Nat × SchedulerSystemContainer))
    (fin : List Nat) (t a : Nat) (hnd : (keysOf cs).Nodup) (hfnd : fin.Nodup)
    (hsub : ∀ x ∈ fin, x ∈ keysOf cs) (ha : a ∈ keysOf cs) (hna : a ∉ fin) :
    finDeps cs fin t + (dependantsOf cs a).count t ≤ depCount cs t := by
  have h := finDeps_le_depCount cs (a :: fin) t hnd
    (List.nodup_cons.mpr ⟨hna, hfnd⟩)
    (by intro x hx; rcases List.mem_cons.mp hx with rfl | hx'
        exacts [ha, hsub x hx'])
  rw [finDeps_cons] at h
  omega

theorem finDeps_eq_depCount_of_cover (cs : List (Nat × SchedulerSystemContainer))
    (fin : List Nat) (t : Nat) (hnd : (keysOf cs).Nodup) (hfnd : fin.Nodup)
    (hsub : fin ⊆ keysOf cs)
    (hzero : ∀ a ∈ keysOf cs, a ∉ fin → (dependantsOf cs a).count t = 0) :
    finDeps cs fin t = depCount cs t := by
  unfold finDeps
  rw [← depCount_eq_sum_keys cs t hnd]
  exact sum_map_eq_of_cover _ fin (keysOf cs) hfnd hsub hnd hzero

theorem dependantsOf_drain (L : List Nat) (cs : List (Nat × SchedulerSystemContainer))
    (q : List Nat) (a : Nat) :
    dependantsOf ((L.foldl drainStep (cs, q)).1) a = dependantsOf cs a := by
  unfold dependantsOf
  rw [drain_lookupC]
  cases lookupC cs a <;> rfl

theorem depsTotalOf_drain (L : List Nat) (cs : List (Nat × SchedulerSystemContainer))
    (q : List Nat) (a : Nat) :
    depsTotalOf ((L.foldl drainStep (cs, q)).1) a = depsTotalOf cs a := by
  unfold depsTotalOf
  rw [drain_lookupC]
  cases lookupC cs a <;> rfl

theorem depsNowOf_drain (L : List Nat) (cs : List (Nat × SchedulerSystemContainer))
    (q : List Nat) (t : Nat) :
    depsNowOf ((L.foldl drainStep (cs, q)).1) t = depsNowOf cs t - L.count t := by
  unfold depsNowOf
  rw [drain_lookupC]
  cases lookupC cs t with
  | none => exact (Nat.zero_sub _).symm
  | some c => rfl

theorem finDeps_drain (L : List Nat) (cs : List (Nat × SchedulerSystemContainer))
    (q : List Nat) (fin : List Nat) (t : Nat) :
    finDeps ((L.foldl drainStep (cs, q)).1) fin t = finDeps cs fin t := by
  unfold finDeps
  congr 1
  apply List.map_congr_left
  intro a _
  rw [dependantsOf_drain]

theorem depCount_pointwise (cs : List (Nat × SchedulerSystemContainer)) (id : Nat)
    (g : SchedulerSystemContainer → SchedulerSystemContainer) (t : Nat)
    (hg : ∀ c, (g c).dependants = c.dependants) :
    depCount (cs.map (fun p => if p.1 = id then (p.1, g p.2) else p)) t = depCount cs t := by
  unfold depCount
  rw [List.map_map]
  congr 1
  apply List.map_congr_left
  intro p _
  by_cases h : p.1 = id <;> simp [h, hg]

theorem depCount_drain (L : List Nat) (cs : List (Nat × SchedulerSystemContainer))
    (q : List Nat) (t : Nat) :
    depCount ((L.foldl drainStep (cs, q)).1) t = depCount cs t := by
  induction L generalizing cs q with
  | nil => rfl
  | cons a L ih =>
    rw [List.foldl_cons]
    cases h : lookupC cs a with
    | none => rw [drainStep_of_none cs q a h]; exact ih cs q
    | some c =>
      rw [drainStep_of_some cs q a c h, ih]
      exact depCount_pointwise cs a (fun c' => { c' with deps_now := c'.deps_now - 1 }) t
        (fun c' => rfl)

theorem count_cons_ne (a t : Nat) (L : List Nat) (ht : t ≠ a) :
    (a :: L).count t = L.count t := by
  rw [List.count_cons]
  simp [ht, Ne.symm ht]

theorem depsNowOf_decrement (cs : List (Nat × SchedulerSystemContainer)) (a t : Nat) :
    depsNowOf (cs.map
        (fun p => if p.1 = a then (p.1, { p.2 with deps_now := p.2.deps_now - 1 }) else p)) t
      = if t = a then depsNowOf cs t - 1 else depsNowOf cs t := by
  unfold depsNowOf
  rw [lookupC_pointwise cs a t (fun c' => { c' with deps_now := c'.deps_now - 1 })]
  by_cases ht : t = a
  · rw [if_pos ht, if_pos ht]
    cases lookupC cs t with
    | none => exact (Nat.zero_sub 1).symm
    | some c => rfl
  · rw [if_neg ht, if_neg ht]

theorem drain_queued_spec :
    ∀ (L : List Nat) (cs : List (Nat × SchedulerSystemContainer)) (q : List Nat),
    (∀ t, L.count t ≤ depsNowOf cs t) →
    ∃ A, (L.foldl drainStep (cs, q)).2 = q ++ A ∧ A.Nodup ∧
      ∀ t, t ∈ A ↔ (L.count t = depsNowOf cs t ∧ 0 < depsNowOf cs t) := by
  intro L
  induction L with
  | nil =>
    intro cs q hle
    refine ⟨[], (List.append_nil q).symm, List.nodup_nil, ?_⟩
    intro t
    constructor
    · intro h; cases h
    · rintro ⟨h1, h2⟩
      rw [List.count_nil] at h1
      omega
  | cons a L ih =>
    intro cs q hle
    have hha : 0 < depsNowOf cs a := by
      have := hle a
      rw [List.count_cons_self] at this
      omega
    cases hc : lookupC cs a with
    | none =>
      exfalso
      unfold depsNowOf at hha
      rw [hc] at hha
      exact Nat.lt_irrefl 0 hha
    | some c =>
      have hch : depsNowOf cs a = c.deps_now := by unfold depsNowOf; rw [hc]
      rw [List.foldl_cons, drainStep_of_some cs q a c hc]
      have hdn1 : ∀ t, depsNowOf (cs.map
          (fun p => if p.1 = a then (p.1, { p.2 with deps_now := p.2.deps_now - 1 }) else p)) t
          = if t = a then depsNowOf cs t - 1 else depsNowOf cs t :=
        fun t => depsNowOf_decrement cs a t
      have hle' : ∀ t, L.count t ≤ depsNowOf (cs.map
          (fun p => if p.1 = a then (p.1, { p.2 with deps_now := p.2.deps_now - 1 }) else p)) t := by
        intro t
        rw [hdn1 t]
        by_cases ht : t = a
        · subst ht
          have := hle t
          rw [List.count_cons_self] at this
          rw [if_pos rfl]
          omega
        · have := hle t
          rw [count_cons_ne a t L ht] at this
          rw [if_neg ht]
          exact this
      by_cases hz : c.deps_now - 1 = 0
      · rw [if_pos hz]
        obtain ⟨A', hAeq, hAnd, hAmem⟩ := ih _ (q ++ [a]) hle'
        refine ⟨a :: A', ?_, ?_, ?_⟩
        · rw [hAeq, List.append_assoc]
          rfl
        · refine List.nodup_cons.mpr ⟨?_, hAnd⟩
          intro hmem
          have hm := (hAmem a).mp hmem
          rw [hdn1 a, if_pos rfl, hch] at hm
          omega
        · intro t
          by_cases ht : t = a
          · subst ht
            have h1 : t ∈ t :: A' := List.mem_cons_self t A'
            have hcnt := hle t
            rw [List.count_cons_self, hch] at hcnt
            simp only [h1, true_iff]
            rw [List.count_cons_self, hch]
            omega
          · have hmA : t ∈ a :: A' ↔ t ∈ A' := by
              constructor
              · intro h; rcases List.mem_cons.mp h with h' | h'
                exacts [absurd h' ht, h']
              · exact List.mem_cons_of_mem a
            rw [hmA, hAmem t, hdn1 t, if_neg ht, count_cons_ne a t L ht]
      · rw [if_neg hz]
        obtain ⟨A', hAeq, hAnd, hAmem⟩ := ih _ q hle'
        refine ⟨A', hAeq, hAnd, ?_⟩
        intro t
        rw [hAmem t]
        by_cases ht : t = a
        · subst ht
          rw [hdn1 t, if_pos rfl, List.count_cons_self, hch]
          constructor
          · rintro ⟨h1, h2⟩
            constructor <;> omega
          · rintro ⟨h1, h2⟩
            constructor <;> omega
        · rw [hdn1 t, if_neg ht, count_cons_ne a t L ht]

theorem update_running (s : UnorderedSchedulerSystem) :
    (update_counters_and_queue_systems s).running = s.running := rfl

theorem update_scratch (s : UnorderedSchedulerSystem) :
    (update_counters_and_queue_systems s).dependants_scratch = [] := rfl

/-- Claim C6: processing one finished identifier (`process_finished_system` followed by
`update_counters_and_queue_systems`, from the empty scratch space the loop maintains)
removes exactly that identifier from `running`, decrements `deps_now` by one for each
occurrence of a dependent in the finished task's `dependants` list with no underflow of
the unsigned subtraction (under the invariant hypothesis that every counter bounds its
pending decrements), appends to `queued` exactly those dependents whose `deps_now`
reaches zero by that decrement, and leaves `deps_total`, `dependants` and all other
tasks' counters unchanged. -/
theorem c6_completion_processing (s : UnorderedSchedulerSystem) (id : Nat)
    (c : SchedulerSystemContainer)
    (hscratch : s.dependants_scratch = [])
    (hc : lookupC s.system_containers id = some c)
    (hle : ∀ t, c.dependants.count t ≤ depsNowOf s.system_containers t) :
    (∀ x, x ∈ (update_counters_and_queue_systems (process_finished_system s id)).running ↔
       (x ∈ s.running ∧ x ≠ id)) ∧
    (∀ t, depsNowOf (update_counters_and_queue_systems
          (process_finished_system s id)).system_containers t + c.dependants.count t
        = depsNowOf s.system_containers t) ∧
    (∀ t, depsTotalOf (update_counters_and_queue_systems
          (process_finished_system s id)).system_containers t
        = depsTotalOf s.system_containers t) ∧
    (∀ t, dependantsOf (update_counters_and_queue_systems
          (process_finished_system s id)).system_containers t
        = dependantsOf s.system_containers t) ∧
    (∀ t, t ∉ c.dependants →
      depsNowOf (update_counters_and_queue_systems
          (process_finished_system s id)).system_containers t
        = depsNowOf s.system_containers t) ∧
    (∃ A, (update_counters_and_queue_systems (process_finished_system s id)).queued
        = s.queued ++ A ∧ A.Nodup ∧
      ∀ t, t ∈ A ↔ (c.dependants.count t = depsNowOf s.system_containers t ∧
        0 < depsNowOf s.system_containers t)) := by
  have hs1c : (process_finished_system s id).system_containers = s.system_containers :=
    process_containers s id
  have hs1s : (process_finished_system s id).dependants_scratch = c.dependants := by
    rw [process_scratch s id c hc, hscratch]
    rfl
  have hs1q : (process_finished_system s id).queued = s.queued := process_queued s id
  refine ⟨?_, ?_, ?_, ?_, ?_, ?_⟩
  · intro x
    rw [update_running, process_running]
    rw [List.mem_filter]
    constructor
    · rintro ⟨h1, h2⟩
      refine ⟨h1, ?_⟩
      intro he
      rw [he] at h2
      simp at h2
    · rintro ⟨h1, h2⟩
      exact ⟨h1, by simpa using h2⟩
  · intro t
    rw [update_containers, hs1c, hs1s, hs1q, depsNowOf_drain]
    have := hle t
    omega
  · intro t
    rw [update_containers, hs1c, hs1s, hs1q, depsTotalOf_drain]
  · intro t
    rw [update_containers, hs1c, hs1s, hs1q, dependantsOf_drain]
  · intro t ht
    rw [update_containers, hs1c, hs1s, hs1q, depsNowOf_drain]
    have hcnt : c.dependants.count t = 0 := by
      rw [List.count_eq_zero]
      exact ht
    rw [hcnt]
    exact Nat.sub_zero _
  · rw [update_queued, hs1c, hs1s, hs1q]
    exact drain_queued_spec c.dependants s.system_containers s.queued hle

theorem c6_witness :
    (∀ x, x ∈ (update_counters_and_queue_systems
        (process_finished_system depSched 0)).running ↔ (x ∈ depSched.running ∧ x ≠ 0)) ∧
    (∀ t, depsNowOf (update_counters_and_queue_systems
          (process_finished_system depSched 0)).system_containers t
        + depContainerA.dependants.count t
        = depsNowOf depSched.system_containers t) ∧
    (∀ t, depsTotalOf (update_counters_and_queue_systems
          (process_finished_system depSched 0)).system_containers t
        = depsTotalOf depSched.system_containers t) ∧
    (∀ t, dependantsOf (update_counters_and_queue_systems
          (process_finished_system depSched 0)).system_containers t
        = dependantsOf depSched.system_containers t) ∧
    (∀ t, t ∉ depContainerA.dependants →
      depsNowOf (update_counters_and_queue_systems
          (process_finished_system depSched 0)).system_containers t
        = depsNowOf depSched.system_containers t) ∧
    (∃ A, (update_counters_and_queue_systems (process_finished_system depSched 0)).queued
        = depSched.queued ++ A ∧ A.Nodup ∧
      ∀ t, t ∈ A ↔ (depContainerA.dependants.count t
          = depsNowOf depSched.system_containers t ∧
        0 < depsNowOf depSched.system_containers t)) := by
  apply c6_completion_processing depSched 0 depContainerA rfl rfl
  intro t
  by_cases h : t = 1
  · subst h
    decide
  · have hcnt : depContainerA.dependants.count t = 0 := by
      rw [List.count_eq_zero]
      intro hmem
      apply h
      have : depContainerA.dependants = [1] := rfl
      rw [this] at hmem
      simpa using hmem
    rw [hcnt]
    exact Nat.zero_le _

theorem prepare_keysOf (s : UnorderedSchedulerSystem) (w : World) :
    keysOf (prepare s w).system_containers = keysOf s.system_containers := by
  by_cases hg : s.last_archetypes_generation = w.archetypes_generation
  · rw [prepare_of_gen_eq s w hg]
    exact keysOf_map_val s.system_containers (fun id c => { c with deps_now := c.deps_total })
  · rw [prepare_of_gen_ne s w hg]
    exact keysOf_map_val s.system_containers
      (fun id c => { c with deps_now := c.deps_total,
                            archetype_access := w.archetype_access_of id })

theorem prepare_depsNowOf (s : UnorderedSchedulerSystem) (w : World) (t : Nat) :
    depsNowOf (prepare s w).system_containers t = depsTotalOf s.system_containers t := by
  unfold depsNowOf depsTotalOf
  by_cases hg : s.last_archetypes_generation = w.archetypes_generation
  · rw [prepare_of_gen_eq s w hg]
    rw [lookupC_map_val s.system_containers (fun id c => { c with deps_now := c.deps_total }) t]
    cases lookupC s.system_containers t <;> rfl
  · rw [prepare_of_gen_ne s w hg]
    rw [lookupC_map_val s.system_containers
      (fun id c => { c with deps_now := c.deps_total,
                            archetype_access := w.archetype_access_of id }) t]
    cases lookupC s.system_containers t <;> rfl

theorem prepare_depsTotalOf (s : UnorderedSchedulerSystem) (w : World) (t : Nat) :
    depsTotalOf (prepare s w).system_containers t = depsTotalOf s.system_containers t := by
  unfold depsTotalOf
  by_cases hg : s.last_archetypes_generation = w.archetypes_generation
  · rw [prepare_of_gen_eq s w hg]
    rw [lookupC_map_val s.system_containers (fun id c => { c with deps_now := c.deps_total }) t]
    cases lookupC s.system_containers t <;> rfl
  · rw [prepare_of_gen_ne s w hg]
    rw [lookupC_map_val s.system_containers
      (fun id c => { c with deps_now := c.deps_total,
                            archetype_access := w.archetype_access_of id }) t]
    cases lookupC s.system_containers t <;> rfl

theorem prepare_dependantsOf (s : UnorderedSchedulerSystem) (w : World) (t : Nat) :
    dependantsOf (prepare s w).system_containers t = dependantsOf s.system_containers t := by
  unfold dependantsOf
  by_cases hg : s.last_archetypes_generation = w.archetypes_generation
  · rw [prepare_of_gen_eq s w hg]
    rw [lookupC_map_val s.system_containers (fun id c => { c with deps_now := c.deps_total }) t]
    cases lookupC s.system_containers t <;> rfl
  · rw [prepare_of_gen_ne s w hg]
    rw [lookupC_map_val s.system_containers
      (fun id c => { c with deps_now := c.deps_total,
                            archetype_access := w.archetype_access_of id }) t]
    cases lookupC s.system_containers t <;> rfl

theorem depCount_map_val (cs : List (Nat × SchedulerSystemContainer))
    (f : Nat → SchedulerSystemContainer → SchedulerSystemContainer) (t : Nat)
    (hf : ∀ id c, (f id c).dependants = c.dependants) :
    depCount (cs.map (fun p => (p.1, f p.1 p.2))) t = depCount cs t := by
  unfold depCount
  rw [List.map_map]
  congr 1
  apply List.map_congr_left
  intro p _
  simp [Function.comp, hf]

theorem prepare_depCount (s : UnorderedSchedulerSystem) (w : World) (t : Nat) :
    depCount (prepare s w).system_containers t = depCount s.system_containers t := by
  by_cases hg : s.last_archetypes_generation = w.archetypes_generation
  · rw [prepare_of_gen_eq s w hg]
    exact depCount_map_val s.system_containers
      (fun id c => { c with deps_now := c.deps_total }) t (fun id c => rfl)
  · rw [prepare_of_gen_ne s w hg]
    exact depCount_map_val s.system_containers
      (fun id c => { c with deps_now := c.deps_total,
                            archetype_access := w.archetype_access_of id }) t (fun id c => rfl)

theorem seedQueue_sublist (cs : List (Nat × SchedulerSystemContainer)) :
    (cs.filterMap (fun p => if p.2.deps_now = 0 then some p.1 else none)).Sublist
      (keysOf cs) := by
  induction cs with
  | nil => simp [keysOf]
  | cons hd tl ih =>
    simp only [List.filterMap_cons, keysOf, List.map_cons]
    by_cases h : hd.2.deps_now = 0
    · rw [if_pos h]
      exact List.Sublist.cons₂ hd.1 ih
    · rw [if_neg h]
      exact List.Sublist.cons hd.1 ih

theorem prepare_queued_mem (s : UnorderedSchedulerSystem) (w : World)
    (hq : s.queued = []) (hnd : (keysOf s.system_containers).Nodup) (id : Nat) :
    id ∈ (prepare s w).queued ↔
      (id ∈ keysOf s.system_containers ∧ depsTotalOf s.system_containers id = 0) := by
  have h := (c5_prepare_resets_and_seeds s w hq).2.1 id
  rw [h]
  constructor
  · rintro ⟨c, hm, h0⟩
    have hk : id ∈ keysOf (prepare s w).system_containers :=
      List.mem_map.mpr ⟨(id, c), hm, rfl⟩
    have hl : lookupC (prepare s w).system_containers id = some c := by
      apply mem_lookupC_eq_some
      · rw [prepare_keysOf]; exact hnd
      · exact hm
    have : depsNowOf (prepare s w).system_containers id = c.deps_now := by
      unfold depsNowOf; rw [hl]
    rw [prepare_keysOf] at hk
    refine ⟨hk, ?_⟩
    rw [← prepare_depsNowOf s w id, this, h0]
  · rintro ⟨hk, h0⟩
    have hk' : id ∈ keysOf (prepare s w).system_containers := by
      rw [prepare_keysOf]; exact hk
    obtain ⟨c, hc⟩ := mem_keys_exists_lookupC _ id hk'
    refine ⟨c, lookupC_eq_some_mem _ id c hc, ?_⟩
    have : depsNowOf (prepare s w).system_containers id = c.deps_now := by
      unfold depsNowOf; rw [hc]
    rw [← this, prepare_depsNowOf s w id, h0]

theorem prepare_queued_nodup (s : UnorderedSchedulerSystem) (w : World)
    (hq : s.queued = []) (hnd : (keysOf s.system_containers).Nodup) :
    (prepare s w).queued.Nodup := by
  have hnd' : (keysOf (prepare s w).system_containers).Nodup := by
    rw [prepare_keysOf]; exact hnd
  have hsub := seedQueue_sublist (prepare s w).system_containers
  have hfil : (prepare s w).queued = (prepare s w).system_containers.filterMap
      (fun p => if p.2.deps_now = 0 then some p.1 else none) := by
    by_cases hg : s.last_archetypes_generation = w.archetypes_generation
    · rw [prepare_of_gen_eq s w hg]
      simp [hq]
    · rw [prepare_of_gen_ne s w hg]
      simp [hq]
  rw [hfil]
  exact hnd'.sublist hsub

theorem admissionFold_basic (cs : List (Nat × SchedulerSystemContainer)) (q : List Nat) :
    ∀ r : List Nat,
    (∀ t ∈ r, t ∈ admissionFold cs q r) ∧
    (∀ t ∈ admissionFold cs q r, t ∈ r ∨ (t ∈ q ∧ t ∈ keysOf cs)) ∧
    (r.Nodup → (admissionFold cs q r).Nodup) := by
  induction q with
  | nil =>
    intro r
    exact ⟨fun t ht => ht, fun t ht => Or.inl ht, fun h => h⟩
  | cons a q ih =>
    intro r
    have hfold : admissionFold cs (a :: q) r =
        admissionFold cs q (if canStartNowWith cs r a then insertRunning r a else r) := rfl
    by_cases hc : canStartNowWith cs r a
    · have hsome : a ∈ keysOf cs :=
        (lookupC_isSome_iff_mem cs a).mp (canStartNowWith_spec cs r a hc).1
      by_cases hmem : a ∈ r
      · have hins : insertRunning r a = r := by
          unfold insertRunning
          rw [if_pos (by simpa using hmem)]
        rw [hfold, if_pos hc, hins]
        obtain ⟨k1, k2, k3⟩ := ih r
        exact ⟨k1, fun t ht => (k2 t ht).imp id
          (fun hh => ⟨List.mem_cons_of_mem a hh.1, hh.2⟩), k3⟩
      · have hins : insertRunning r a = a :: r := by
          unfold insertRunning
          rw [if_neg (by simpa using hmem)]
        rw [hfold, if_pos hc, hins]
        obtain ⟨k1, k2, k3⟩ := ih (a :: r)
        refine ⟨fun t ht => k1 t (List.mem_cons_of_mem a ht), ?_,
          fun hnd => k3 (List.nodup_cons.mpr ⟨hmem, hnd⟩)⟩
        intro t ht
        rcases k2 t ht with h | h
        · rcases List.mem_cons.mp h with h' | h'
          · exact Or.inr ⟨h' ▸ List.mem_cons_self a q, h' ▸ hsome⟩
          · exact Or.inl h'
        · exact Or.inr ⟨List.mem_cons_of_mem a h.1, h.2⟩
    · rw [hfold, if_neg hc]
      obtain ⟨k1, k2, k3⟩ := ih r
      exact ⟨k1, fun t ht => (k2 t ht).imp id
        (fun hh => ⟨List.mem_cons_of_mem a hh.1, hh.2⟩), k3⟩

theorem schedInv_mk (sch : UnorderedSchedulerSystem) (fin : List Nat)
    (h1 : GraphWF sch.system_containers)
    (h2 : ∀ t ∈ sch.queued, t ∈ keysOf sch.system_containers)
    (h3 : ∀ t ∈ sch.running, t ∈ keysOf sch.system_containers)
    (h4 : ∀ t ∈ fin, t ∈ keysOf sch.system_containers)
    (h5 : ∀ t ∈ sch.dependants_scratch, t ∈ keysOf sch.system_containers)
    (h6 : sch.queued.Nodup) (h7 : sch.running.Nodup) (h8 : fin.Nodup)
    (h9 : ∀ t ∈ sch.queued, t ∉ sch.running)
    (h10 : ∀ t ∈ sch.queued, t ∉ fin)
    (h11 : ∀ t ∈ sch.running, t ∉ fin)
    (h12 : ∀ t, depsNowOf sch.system_containers t + finDeps sch.system_containers fin t
        = depsTotalOf sch.system_containers t + sch.dependants_scratch.count t)
    (h13 : ∀ t, sch.dependants_scratch.count t ≤ finDeps sch.system_containers fin t)
    (h14 : ∀ t, (t ∈ sch.queued ∨ t ∈ sch.running ∨ t ∈ fin) →
        depsNowOf sch.system_containers t = 0)
    (h15 : ∀ t ∈ keysOf sch.system_containers, depsNowOf sch.system_containers t = 0 →
        (t ∈ sch.queued ∨ t ∈ sch.running ∨ t ∈ fin)) :
    SchedInv ⟨sch, fin⟩ :=
  ⟨h1, h2, h3, h4, h5, h6, h7, h8, h9, h10, h11, h12, h13, h14, h15⟩

theorem not_contains_iff (l : List Nat) (a : Nat) : (!(l.contains a)) = true ↔ a ∉ l := by
  simp

theorem finDeps_nil (cs : List (Nat × SchedulerSystemContainer)) (t : Nat) :
    finDeps cs [] t = 0 := rfl

theorem schedInv_initial (s0 : UnorderedSchedulerSystem) (w : World)
    (h1 : s0.queued = []) (h2 : s0.running = []) (h3 : s0.dependants_scratch = [])
    (hwf : GraphWF s0.system_containers) : SchedInv (initialState s0 w) := by
  obtain ⟨hnd, hdep, htot⟩ := hwf
  have hkeys := prepare_keysOf s0 w
  have hrun : (prepare s0 w).running = [] := by rw [(prepare_misc s0 w).1, h2]
  have hscr : (prepare s0 w).dependants_scratch = [] := by rw [(prepare_misc s0 w).2, h3]
  have hqmem := prepare_queued_mem s0 w h1 hnd
  show SchedInv ⟨prepare s0 w, []⟩
  apply schedInv_mk
  · refine ⟨by rw [hkeys]; exact hnd, ?_, ?_⟩
    · intro a ha d hd
      rw [hkeys] at ha ⊢
      rw [prepare_dependantsOf] at hd
      exact hdep a ha d hd
    · intro a ha
      rw [hkeys] at ha
      rw [prepare_depsTotalOf, prepare_depCount]
      exact htot a ha
  · intro t ht
    rw [hkeys]
    exact ((hqmem t).mp ht).1
  · intro t ht
    rw [hrun] at ht
    cases ht
  · intro t ht
    cases ht
  · intro t ht
    rw [hscr] at ht
    cases ht
  · exact prepare_queued_nodup s0 w h1 hnd
  · rw [hrun]
    exact List.nodup_nil
  · exact List.nodup_nil
  · intro t ht
    rw [hrun]
    exact List.not_mem_nil t
  · intro t ht
    exact List.not_mem_nil t
  · intro t ht
    exact List.not_mem_nil t
  · intro t
    rw [finDeps_nil, hscr, prepare_depsNowOf, prepare_depsTotalOf, List.count_nil]
  · intro t
    rw [finDeps_nil, hscr]
    exact Nat.le_refl 0
  · intro t ht
    rcases ht with ht | ht | ht
    · rw [prepare_depsNowOf]
      exact ((hqmem t).mp ht).2
    · rw [hrun] at ht
      cases ht
    · cases ht
  · intro t ht h0
    left
    rw [prepare_depsNowOf] at h0
    rw [hkeys] at ht
    exact (hqmem t).mpr ⟨ht, h0⟩

theorem schedInv_start (s : UnorderedSchedulerSystem) (fin : List Nat)
    (inv : SchedInv ⟨s, fin⟩) : SchedInv ⟨start_all_runnable_queued_systems s, fin⟩ := by
  obtain ⟨b1, b2, b3⟩ := admissionFold_basic s.system_containers s.queued s.running
  have i1 : GraphWF s.system_containers := inv.graphWF
  have i2 : ∀ t ∈ s.queued, t ∈ keysOf s.system_containers := inv.queued_keys
  have i3 : ∀ t ∈ s.running, t ∈ keysOf s.system_containers := inv.running_keys
  have i4 : ∀ t ∈ fin, t ∈ keysOf s.system_containers := inv.finished_keys
  have i5 : ∀ t ∈ s.dependants_scratch, t ∈ keysOf s.system_containers := inv.scratch_keys
  have i6 : s.queued.Nodup := inv.queued_nodup
  have i7 : s.running.Nodup := inv.running_nodup
  have i8 : fin.Nodup := inv.finished_nodup
  have i10 : ∀ t ∈ s.queued, t ∉ fin := inv.queued_not_finished
  have i11 : ∀ t ∈ s.running, t ∉ fin := inv.running_not_finished
  have i12 : ∀ t, depsNowOf s.system_containers t + finDeps s.system_containers fin t
      = depsTotalOf s.system_containers t + s.dependants_scratch.count t := inv.counter
  have i13 : ∀ t, s.dependants_scratch.count t ≤ finDeps s.system_containers fin t :=
    inv.scratch_le
  have i14 : ∀ t, (t ∈ s.queued ∨ t ∈ s.running ∨ t ∈ fin) →
      depsNowOf s.system_containers t = 0 := inv.active_zero
  have i15 : ∀ t ∈ keysOf s.system_containers, depsNowOf s.system_containers t = 0 →
      (t ∈ s.queued ∨ t ∈ s.running ∨ t ∈ fin) := inv.zero_active
  have hqmem : ∀ t, t ∈ (start_all_runnable_queued_systems s).queued ↔
      (t ∈ s.queued ∧ t ∉ admissionFold s.system_containers s.queued s.running) := by
    intro t
    show t ∈ s.queued.filter _ ↔ _
    rw [List.mem_filter, not_contains_iff]
    exact Iff.rfl
  apply schedInv_mk
  · exact i1
  · intro t ht
    exact i2 t ((hqmem t).mp ht).1
  · intro t ht
    rcases b2 t ht with h | h
    · exact i3 t h
    · exact h.2
  · exact i4
  · exact i5
  · show ((start_all_runnable_queued_systems s).queued).Nodup
    exact i6.filter _
  · exact b3 i7
  · exact i8
  · intro t ht
    exact ((hqmem t).mp ht).2
  · intro t ht
    exact i10 t ((hqmem t).mp ht).1
  · intro t ht
    rcases b2 t ht with h | h
    · exact i11 t h
    · exact i10 t h.1
  · exact i12
  · exact i13
  · intro t ht
    apply i14 t
    rcases ht with ht | ht | ht
    · exact Or.inl ((hqmem t).mp ht).1
    · rcases b2 t ht with h | h
      · exact Or.inr (Or.inl h)
      · exact Or.inl h.1
    · exact Or.inr (Or.inr ht)
  · intro t ht h0
    rcases i15 t ht h0 with h | h | h
    · by_cases hm : t ∈ admissionFold s.system_containers s.queued s.running
      · exact Or.inr (Or.inl hm)
      · exact Or.inl ((hqmem t).mpr ⟨h, hm⟩)
    · exact Or.inr (Or.inl (b1 t h))
    · exact Or.inr (Or.inr h)

theorem schedInv_finish (s : UnorderedSchedulerSystem) (fin : List Nat) (id : Nat)
    (hid : id ∈ s.running) (inv : SchedInv ⟨s, fin⟩) :
    SchedInv ⟨process_finished_system s id, fin ++ [id]⟩ := by
  have i1 : GraphWF s.system_containers := inv.graphWF
  have i2 : ∀ t ∈ s.queued, t ∈ keysOf s.system_containers := inv.queued_keys
  have i3 : ∀ t ∈ s.running, t ∈ keysOf s.system_containers := inv.running_keys
  have i4 : ∀ t ∈ fin, t ∈ keysOf s.system_containers := inv.finished_keys
  have i5 : ∀ t ∈ s.dependants_scratch, t ∈ keysOf s.system_containers := inv.scratch_keys
  have i6 : s.queued.Nodup := inv.queued_nodup
  have i7 : s.running.Nodup := inv.running_nodup
  have i8 : fin.Nodup := inv.finished_nodup
  have i9 : ∀ t ∈ s.queued, t ∉ s.running := inv.queued_not_running
  have i10 : ∀ t ∈ s.queued, t ∉ fin := inv.queued_not_finished
  have i11 : ∀ t ∈ s.running, t ∉ fin := inv.running_not_finished
  have i12 : ∀ t, depsNowOf s.system_containers t + finDeps s.system_containers fin t
      = depsTotalOf s.system_containers t + s.dependants_scratch.count t := inv.counter
  have i13 : ∀ t, s.dependants_scratch.count t ≤ finDeps s.system_containers fin t :=
    inv.scratch_le
  have i14 : ∀ t, (t ∈ s.queued ∨ t ∈ s.running ∨ t ∈ fin) →
      depsNowOf s.system_containers t = 0 := inv.active_zero
  have i15 : ∀ t ∈ keysOf s.system_containers, depsNowOf s.system_containers t = 0 →
      (t ∈ s.queued ∨ t ∈ s.running ∨ t ∈ fin) := inv.zero_active
  have hidk : id ∈ keysOf s.system_containers := i3 id hid
  obtain ⟨c, hc⟩ := mem_keys_exists_lookupC s.system_containers id hidk
  have hdep_c : dependantsOf s.system_containers id = c.dependants := by
    unfold dependantsOf
    rw [hc]
  have hcs := process_containers s id
  have hq := process_queued s id
  have hscr := process_scratch s id c hc
  have hrmem : ∀ x, x ∈ (process_finished_system s id).running ↔
      (x ∈ s.running ∧ x ≠ id) := by
    intro x
    rw [process_running, List.mem_filter]
    constructor
    · rintro ⟨hx1, hx2⟩
      exact ⟨hx1, by simpa using hx2⟩
    · rintro ⟨hx1, hx2⟩
      exact ⟨hx1, by simpa using hx2⟩
  have hfin' : ∀ x, x ∈ fin ++ [id] ↔ (x ∈ fin ∨ x = id) := by
    intro x
    simp
  have hidnotfin : id ∉ fin := i11 id hid
  apply schedInv_mk
  · rw [hcs]
    exact i1
  · intro t ht
    rw [hq] at ht
    rw [hcs]
    exact i2 t ht
  · intro t ht
    rw [hcs]
    exact i3 t ((hrmem t).mp ht).1
  · intro t ht
    rw [hcs]
    rcases (hfin' t).mp ht with h | h
    · exact i4 t h
    · exact h ▸ hidk
  · intro t ht
    rw [hscr] at ht
    rw [hcs]
    rcases List.mem_append.mp ht with h | h
    · exact i5 t h
    · exact i1.2.1 id hidk t (by rw [hdep_c]; exact h)
  · rw [hq]
    exact i6
  · rw [process_running]
    exact i7.filter _
  · exact ((List.perm_append_singleton id fin).nodup_iff).mpr
      (List.nodup_cons.mpr ⟨hidnotfin, i8⟩)
  · intro t ht hr'
    rw [hq] at ht
    exact i9 t ht ((hrmem t).mp hr').1
  · intro t ht hf'
    rw [hq] at ht
    rcases (hfin' t).mp hf' with h | h
    · exact i10 t ht h
    · exact i9 t ht (h ▸ hid)
  · intro t ht hf'
    obtain ⟨htr, htne⟩ := (hrmem t).mp ht
    rcases (hfin' t).mp hf' with h | h
    · exact i11 t htr h
    · exact htne h
  · intro t
    rw [hcs, hscr, finDeps_append_one, List.count_append, hdep_c]
    have := i12 t
    omega
  · intro t
    rw [hcs, hscr, finDeps_append_one, List.count_append, hdep_c]
    have := i13 t
    omega
  · intro t ht
    rw [hcs]
    apply i14 t
    rcases ht with ht | ht | ht
    · rw [hq] at ht
      exact Or.inl ht
    · exact Or.inr (Or.inl ((hrmem t).mp ht).1)
    · rcases (hfin' t).mp ht with h | h
      · exact Or.inr (Or.inr h)
      · exact Or.inr (Or.inl (h ▸ hid))
  · intro t ht h0
    rw [hcs] at ht h0
    rcases i15 t ht h0 with h | h | h
    · rw [hq]
      exact Or.inl h
    · by_cases he : t = id
      · exact Or.inr (Or.inr ((hfin' t).mpr (Or.inr he)))
      · exact Or.inr (Or.inl ((hrmem t).mpr ⟨h, he⟩))
    · exact Or.inr (Or.inr ((hfin' t).mpr (Or.inl h)))

theorem schedInv_update (s : UnorderedSchedulerSystem) (fin : List Nat)
    (inv : SchedInv ⟨s, fin⟩) : SchedInv ⟨update_counters_and_queue_systems s, fin⟩ := by
  have i1 : GraphWF s.system_containers := inv.graphWF
  have i2 : ∀ t ∈ s.queued, t ∈ keysOf s.system_containers := inv.queued_keys
  have i3 : ∀ t ∈ s.running, t ∈ keysOf s.system_containers := inv.running_keys
  have i4 : ∀ t ∈ fin, t ∈ keysOf s.system_containers := inv.finished_keys
  have i5 : ∀ t ∈ s.dependants_scratch, t ∈ keysOf s.system_containers := inv.scratch_keys
  have i6 : s.queued.Nodup := inv.queued_nodup
  have i7 : s.running.Nodup := inv.running_nodup
  have i8 : fin.Nodup := inv.finished_nodup
  have i9 : ∀ t ∈ s.queued, t ∉ s.running := inv.queued_not_running
  have i10 : ∀ t ∈ s.queued, t ∉ fin := inv.queued_not_finished
  have i11 : ∀ t ∈ s.running, t ∉ fin := inv.running_not_finished
  have i12 : ∀ t, depsNowOf s.system_containers t + finDeps s.system_containers fin t
      = depsTotalOf s.system_containers t + s.dependants_scratch.count t := inv.counter
  have i14 : ∀ t, (t ∈ s.queued ∨ t ∈ s.running ∨ t ∈ fin) →
      depsNowOf s.system_containers t = 0 := inv.active_zero
  have i15 : ∀ t ∈ keysOf s.system_containers, depsNowOf s.system_containers t = 0 →
      (t ∈ s.queued ∨ t ∈ s.running ∨ t ∈ fin) := inv.zero_active
  have hle : ∀ t, s.dependants_scratch.count t ≤ depsNowOf s.system_containers t := by
    intro t
    by_cases hk : t ∈ keysOf s.system_containers
    · have h12 := i12 t
      have hfb : finDeps s.system_containers fin t ≤ depCount s.system_containers t :=
        finDeps_le_depCount _ fin t i1.1 i8 i4
      have htot : depsTotalOf s.system_containers t = depCount s.system_containers t :=
        i1.2.2 t hk
      omega
    · have : s.dependants_scratch.count t = 0 := by
        rw [List.count_eq_zero]
        intro hmem
        exact hk (i5 t hmem)
      omega
  obtain ⟨A, hAeq, hAnd, hAmem⟩ :=
    drain_queued_spec s.dependants_scratch s.system_containers s.queued hle
  have hq : (update_counters_and_queue_systems s).queued = s.queued ++ A := by
    rw [update_queued]
    exact hAeq
  have hcsk : keysOf (update_counters_and_queue_systems s).system_containers
      = keysOf s.system_containers := keysOf_update s
  have hdnow : ∀ t, depsNowOf (update_counters_and_queue_systems s).system_containers t
      = depsNowOf s.system_containers t - s.dependants_scratch.count t := by
    intro t
    rw [update_containers]
    exact depsNowOf_drain _ _ _ t
  have hAnotactive : ∀ t ∈ A, t ∉ s.queued ∧ t ∉ s.running ∧ t ∉ fin := by
    intro t ht
    have h0 := ((hAmem t).mp ht).2
    refine ⟨?_, ?_, ?_⟩
    · intro hx
      have := i14 t (Or.inl hx)
      omega
    · intro hx
      have := i14 t (Or.inr (Or.inl hx))
      omega
    · intro hx
      have := i14 t (Or.inr (Or.inr hx))
      omega
  have hqmem' : ∀ t, t ∈ (update_counters_and_queue_systems s).queued ↔
      (t ∈ s.queued ∨ t ∈ A) := by
    intro t
    rw [hq]
    simp
  apply schedInv_mk
  · refine ⟨by rw [hcsk]; exact i1.1, ?_, ?_⟩
    · intro a ha d hd
      rw [hcsk] at ha ⊢
      rw [update_containers, dependantsOf_drain] at hd
      exact i1.2.1 a ha d hd
    · intro a ha
      rw [hcsk] at ha
      rw [update_containers, depsTotalOf_drain, depCount_drain]
      exact i1.2.2 a ha
  · intro t ht
    rw [hcsk]
    rcases (hqmem' t).mp ht with h | h
    · exact i2 t h
    · have hcnt := (hAmem t).mp h
      have hpos : 0 < s.dependants_scratch.count t := by omega
      exact i5 t (List.count_pos_iff.mp hpos)
  · intro t ht
    rw [update_running] at ht
    rw [hcsk]
    exact i3 t ht
  · intro t ht
    rw [hcsk]
    exact i4 t ht
  · intro t ht
    rw [update_scratch] at ht
    cases ht
  · rw [hq]
    exact i6.append hAnd (fun t htq htA => (hAnotactive t htA).1 htq)
  · rw [update_running]
    exact i7
  · exact i8
  · intro t ht
    rw [update_running]
    rcases (hqmem' t).mp ht with h | h
    · exact i9 t h
    · exact (hAnotactive t h).2.1
  · intro t ht
    rcases (hqmem' t).mp ht with h | h
    · exact i10 t h
    · exact (hAnotactive t h).2.2
  · intro t ht
    rw [update_running] at ht
    exact i11 t ht
  · intro t
    rw [hdnow t, update_scratch, List.count_nil, update_containers, finDeps_drain,
      depsTotalOf_drain]
    have h12 := i12 t
    have hl := hle t
    omega
  · intro t
    rw [update_scratch, List.count_nil]
    exact Nat.zero_le _
  · intro t ht
    rw [hdnow t]
    rcases ht with ht | ht | ht
    · rcases (hqmem' t).mp ht with h | h
      · have h0 : depsNowOf s.system_containers t = 0 := i14 t (Or.inl h)
        omega
      · have hc := (hAmem t).mp h
        omega
    · rw [update_running] at ht
      have h0 := i14 t (Or.inr (Or.inl ht))
      omega
    · have h0 := i14 t (Or.inr (Or.inr ht))
      omega
  · intro t ht h0
    rw [hcsk] at ht
    rw [hdnow t] at h0
    by_cases hz : depsNowOf s.system_containers t = 0
    · rcases i15 t ht hz with h | h | h
      · exact Or.inl ((hqmem' t).mpr (Or.inl h))
      · rw [update_running]
        exact Or.inr (Or.inl h)
      · exact Or.inr (Or.inr h)
    · have hcnt := hle t
      have heq : s.dependants_scratch.count t = depsNowOf s.system_containers t := by omega
      exact Or.inl ((hqmem' t).mpr (Or.inr ((hAmem t).mpr ⟨heq, by omega⟩)))

theorem schedInv_step (r r' : RunState) (hstep : LoopStep r r') (inv : SchedInv r) :
    SchedInv r' := by
  cases hstep with
  | start s fin => exact schedInv_start s fin inv
  | finish s fin id hid => exact schedInv_finish s fin id hid inv
  | update s fin => exact schedInv_update s fin inv

theorem schedInv_reach (s0 : UnorderedSchedulerSystem) (w : World) (r : RunState)
    (h1 : s0.queued = []) (h2 : s0.running = []) (h3 : s0.dependants_scratch = [])
    (hwf : GraphWF s0.system_containers) (hreach : LoopReach (initialState s0 w) r) :
    SchedInv r := by
  induction hreach with
  | refl => exact schedInv_initial s0 w h1 h2 h3 hwf
  | tail hsteps hstep ih => exact schedInv_step _ _ hstep ih

theorem schedInv_deps_finished (r : RunState) (inv : SchedInv r) (t : Nat)
    (ht : t ∈ r.sched.running ∨ t ∈ r.finished) (a : Nat)
    (hdep : t ∈ dependantsOf r.sched.system_containers a) : a ∈ r.finished := by
  by_contra hna
  have ha : a ∈ keysOf r.sched.system_containers := by
    unfold dependantsOf at hdep
    cases hl : lookupC r.sched.system_containers a with
    | none => rw [hl] at hdep; cases hdep
    | some c => exact (lookupC_isSome_iff_mem _ _).mp (by rw [hl]; rfl)
  have h0 : depsNowOf r.sched.system_containers t = 0 :=
    inv.active_zero t (by rcases ht with h | h; exacts [Or.inr (Or.inl h), Or.inr (Or.inr h)])
  have htk : t ∈ keysOf r.sched.system_containers := by
    rcases ht with h | h
    · exact inv.running_keys t h
    · exact inv.finished_keys t h
  have hdt : depsTotalOf r.sched.system_containers t
      = depCount r.sched.system_containers t := inv.graphWF.2.2 t htk
  have hb := finDeps_add_le_depCount r.sched.system_containers r.finished t a
    inv.graphWF.1 inv.finished_nodup inv.finished_keys ha hna
  have hone : 0 < (dependantsOf r.sched.system_containers a).count t :=
    List.count_pos_iff.mpr hdep
  have hcnt := inv.counter t
  omega

/-- Claim C2: for every pair of tasks where B depends on A, B's start signal is never
raised before A has finished: in every state reachable through the loop's step relation
from a prepared initial state of a well-formed graph, every task in `running` or already
finished has all of its declared dependencies (the tasks whose `dependants` lists mention
it) already finished — an id reaches `queued` only when its `deps_now` counter is zero,
and start signals are raised only for ids taken from `queued`. -/
theorem c2_dependency_ordering (s0 : UnorderedSchedulerSystem) (w : World) (r : RunState)
    (h1 : s0.queued = []) (h2 : s0.running = []) (h3 : s0.dependants_scratch = [])
    (hwf : GraphWF s0.system_containers) (hreach : LoopReach (initialState s0 w) r) :
    ∀ t, (t ∈ r.sched.running ∨ t ∈ r.finished) →
      ∀ a, t ∈ dependantsOf r.sched.system_containers a → a ∈ r.finished :=
  fun t ht a hdep =>
    schedInv_deps_finished r (schedInv_reach s0 w r h1 h2 h3 hwf hreach) t ht a hdep

theorem c2_witness :
    (0 : Nat) ∈ (RunState.mk
      (start_all_runnable_queued_systems (update_counters_and_queue_systems
        (process_finished_system
          (start_all_runnable_queued_systems (prepare graphSched sampleWorld)) 0)))
      ([] ++ [0])).finished :=
  c2_dependency_ordering graphSched sampleWorld _ rfl rfl rfl
    ⟨by decide, by decide, by decide⟩
    (Relation.ReflTransGen.tail
      (Relation.ReflTransGen.tail
        (Relation.ReflTransGen.tail
          (Relation.ReflTransGen.tail Relation.ReflTransGen.refl
            (LoopStep.start _ _))
          (LoopStep.finish _ _ 0 (by decide)))
        (LoopStep.update _ _))
      (LoopStep.start _ _))
    1 (Or.inl (by decide)) 0 (by decide)

theorem schedInv_deps_of_zero (r : RunState) (inv : SchedInv r) (t : Nat)
    (htk : t ∈ keysOf r.sched.system_containers)
    (h0 : depsNowOf r.sched.system_containers t = 0) (a : Nat)
    (hdep : t ∈ dependantsOf r.sched.system_containers a) : a ∈ r.finished := by
  by_contra hna
  have ha : a ∈ keysOf r.sched.system_containers := by
    unfold dependantsOf at hdep
    cases hl : lookupC r.sched.system_containers a with
    | none => rw [hl] at hdep; cases hdep
    | some c => exact (lookupC_isSome_iff_mem _ _).mp (by rw [hl]; rfl)
  have hdt : depsTotalOf r.sched.system_containers t
      = depCount r.sched.system_containers t := inv.graphWF.2.2 t htk
  have hb := finDeps_add_le_depCount r.sched.system_containers r.finished t a
    inv.graphWF.1 inv.finished_nodup inv.finished_keys ha hna
  have hone : 0 < (dependantsOf r.sched.system_containers a).count t :=
    List.count_pos_iff.mpr hdep
  have hcnt := inv.counter t
  omega

theorem schedInv_processBatch (batch : List Nat) :
    ∀ (s : UnorderedSchedulerSystem) (fin : List Nat), batch.Nodup →
    (∀ id ∈ batch, id ∈ s.running) → SchedInv ⟨s, fin⟩ →
    SchedInv ⟨processBatch s batch, fin ++ batch⟩ := by
  induction batch with
  | nil =>
    intro s fin _ _ inv
    show SchedInv ⟨s, fin ++ []⟩
    rw [List.append_nil]
    exact inv
  | cons a batch ih =>
    intro s fin hnd hmem inv
    have hnd' := List.nodup_cons.mp hnd
    have inv1 := schedInv_finish s fin a (hmem a (List.mem_cons_self a batch)) inv
    have hmem1 : ∀ id ∈ batch, id ∈ (process_finished_system s a).running := by
      intro id hidb
      rw [process_running, List.mem_filter]
      refine ⟨hmem id (List.mem_cons_of_mem a hidb), ?_⟩
      have : id ≠ a := fun he => hnd'.1 (he ▸ hidb)
      simpa using this
    have h2 := ih (process_finished_system s a) (fin ++ [a]) hnd'.2 hmem1 inv1
    show SchedInv ⟨processBatch (process_finished_system s a) batch, fin ++ a :: batch⟩
    have he : fin ++ a :: batch = (fin ++ [a]) ++ batch := by simp
    rw [he]
    exact h2

theorem schedInv_iteration (s : UnorderedSchedulerSystem) (fin : List Nat)
    (batch : List Nat) (hvb : ValidBatch s batch) (inv : SchedInv ⟨s, fin⟩) :
    SchedInv ⟨loopIteration s batch, fin ++ batch⟩ := by
  obtain ⟨hne, hnd, hmem⟩ := hvb
  have h1 := schedInv_start s fin inv
  have h2 := schedInv_processBatch batch (start_all_runnable_queued_systems s) fin hnd hmem h1
  exact schedInv_update _ _ h2

theorem schedInv_traceN (s0 : UnorderedSchedulerSystem) (w : World) (k : Nat) (r : RunState)
    (h1 : s0.queued = []) (h2 : s0.running = []) (h3 : s0.dependants_scratch = [])
    (hwf : GraphWF s0.system_containers) (htr : RunTraceN (initialState s0 w) k r) :
    SchedInv r := by
  induction htr with
  | refl => exact schedInv_initial s0 w h1 h2 h3 hwf
  | step k s fin batch htr hvb ih => exact schedInv_iteration s fin batch hvb ih

theorem traceN_length (r₀ : RunState) (k : Nat) (r : RunState)
    (htr : RunTraceN r₀ k r) : r₀.finished.length + k ≤ r.finished.length := by
  induction htr with
  | refl => omega
  | step k s fin batch htr hvb ih =>
    have ih' : r₀.finished.length + k ≤ fin.length := ih
    have hb : 0 < batch.length := List.length_pos.mpr hvb.1
    show r₀.finished.length + (k + 1) ≤ (fin ++ batch).length
    rw [List.length_append]
    omega

theorem traceN_scratch (s0 : UnorderedSchedulerSystem) (w : World) (k : Nat) (r : RunState)
    (h3 : s0.dependants_scratch = []) (htr : RunTraceN (initialState s0 w) k r) :
    r.sched.dependants_scratch = [] := by
  induction htr with
  | refl =>
    show (prepare s0 w).dependants_scratch = []
    rw [(prepare_misc s0 w).2, h3]
  | step k s fin batch htr hvb ih =>
    exact update_scratch _

theorem keysOf_processBatch (batch : List Nat) :
    ∀ s : UnorderedSchedulerSystem,
      keysOf (processBatch s batch).system_containers = keysOf s.system_containers := by
  induction batch with
  | nil => intro s; rfl
  | cons a batch ih =>
    intro s
    show keysOf (processBatch (process_finished_system s a) batch).system_containers = _
    rw [ih, process_containers]

theorem keysOf_iteration (s : UnorderedSchedulerSystem) (batch : List Nat) :
    keysOf (loopIteration s batch).system_containers = keysOf s.system_containers := by
  show keysOf (update_counters_and_queue_systems _).system_containers = _
  rw [keysOf_update, keysOf_processBatch]
  rfl

theorem keysOf_traceN (r₀ : RunState) (k : Nat) (r : RunState) (htr : RunTraceN r₀ k r) :
    keysOf r.sched.system_containers = keysOf r₀.sched.system_containers := by
  induction htr with
  | refl => rfl
  | step k s fin batch htr hvb ih =>
    have ih' : keysOf s.system_containers = keysOf r₀.sched.system_containers := ih
    show keysOf (loopIteration s batch).system_containers = _
    rw [keysOf_iteration, ih']

theorem dependantsOf_processBatch (batch : List Nat) :
    ∀ (s : UnorderedSchedulerSystem) (a : Nat),
      dependantsOf (processBatch s batch).system_containers a
        = dependantsOf s.system_containers a := by
  induction batch with
  | nil => intro s a; rfl
  | cons b batch ih =>
    intro s a
    show dependantsOf (processBatch (process_finished_system s b) batch).system_containers a = _
    rw [ih, process_containers]

theorem dependantsOf_iteration (s : UnorderedSchedulerSystem) (batch : List Nat) (a : Nat) :
    dependantsOf (loopIteration s batch).system_containers a
      = dependantsOf s.system_containers a := by
  show dependantsOf (update_counters_and_queue_systems _).system_containers a = _
  rw [update_containers, dependantsOf_drain, dependantsOf_processBatch]
  rfl

theorem dependantsOf_traceN (r₀ : RunState) (k : Nat) (r : RunState)
    (htr : RunTraceN r₀ k r) :
    ∀ a, dependantsOf r.sched.system_containers a
      = dependantsOf r₀.sched.system_containers a := by
  induction htr with
  | refl => intro a; rfl
  | step k s fin batch htr hvb ih =>
    intro a
    have ih' : dependantsOf s.system_containers a
        = dependantsOf r₀.sched.system_containers a := ih a
    show dependantsOf (loopIteration s batch).system_containers a = _
    rw [dependantsOf_iteration, ih']

theorem canStartNowWith_nil (cs : List (Nat × SchedulerSystemContainer)) (a : Nat)
    (h : (lookupC cs a).isSome = true) : canStartNowWith cs [] a = true := by
  unfold canStartNowWith
  cases hl : lookupC cs a with
  | none => rw [hl] at h; cases h
  | some c => rfl

theorem progress_exists_batch (s : UnorderedSchedulerSystem)
    (hqk : ∀ t ∈ s.queued, t ∈ keysOf s.system_containers)
    (hne : ¬ loopDone s) : ∃ batch, ValidBatch s batch := by
  cases hr : s.running with
  | cons r0 rs =>
    refine ⟨[r0], by simp, List.nodup_singleton r0, ?_⟩
    intro id hid
    obtain rfl : id = r0 := by simpa using hid
    have hmem : id ∈ s.running := by rw [hr]; exact List.mem_cons_self id rs
    exact (admissionFold_basic s.system_containers s.queued s.running).1 id hmem
  | nil =>
    cases hq : s.queued with
    | nil => exact absurd ⟨hq, hr⟩ hne
    | cons a q' =>
      refine ⟨[a], by simp, List.nodup_singleton a, ?_⟩
      intro id hid
      obtain rfl : id = a := by simpa using hid
      show id ∈ admissionFold s.system_containers s.queued s.running
      rw [hq, hr]
      have hak : id ∈ keysOf s.system_containers :=
        hqk id (by rw [hq]; exact List.mem_cons_self id q')
      have hsome : (lookupC s.system_containers id).isSome = true :=
        (lookupC_isSome_iff_mem _ _).mpr hak
      have hcan : canStartNowWith s.system_containers [] id = true :=
        canStartNowWith_nil _ _ hsome
      have hfold : admissionFold s.system_containers (id :: q') ([] : List Nat)
          = admissionFold s.system_containers q' [id] := by
        unfold admissionFold
        rw [List.foldl_cons, if_pos hcan]
        rfl
      rw [hfold]
      exact (admissionFold_basic s.system_containers q' [id]).1 id
        (List.mem_cons_self id [])

theorem done_all_finished (r : RunState) (inv : SchedInv r)
    (hscr : r.sched.dependants_scratch = [])
    (hacyc : Acyclic r.sched.system_containers) (hdone : loopDone r.sched) :
    ∀ t ∈ keysOf r.sched.system_containers, t ∈ r.finished := by
  obtain ⟨rank, hrank⟩ := hacyc
  have main : ∀ n, ∀ t ∈ keysOf r.sched.system_containers,
      t ∉ r.finished → rank t < n → False := by
    intro n
    induction n with
    | zero => intro t _ _ h; omega
    | succ n ih =>
      intro t htk htnf hlt
      have hnz : depsNowOf r.sched.system_containers t ≠ 0 := by
        intro h0
        rcases inv.zero_active t htk h0 with h | h | h
        · rw [hdone.1] at h; cases h
        · rw [hdone.2] at h; cases h
        · exact htnf h
      have hcnt := inv.counter t
      rw [hscr, List.count_nil] at hcnt
      have htot := inv.graphWF.2.2 t htk
      by_cases hall : ∀ a ∈ keysOf r.sched.system_containers, a ∉ r.finished →
          (dependantsOf r.sched.system_containers a).count t = 0
      · have hfd := finDeps_eq_depCount_of_cover r.sched.system_containers r.finished t
          inv.graphWF.1 inv.finished_nodup inv.finished_keys hall
        omega
      · push_neg at hall
        obtain ⟨a, hak, hanf, hcnt0⟩ := hall
        have hdep : t ∈ dependantsOf r.sched.system_containers a :=
          List.count_pos_iff.mp (Nat.pos_of_ne_zero hcnt0)
        have hr := hrank a hak t hdep
        exact ih a hak hanf (by omega)
  intro t htk
  by_contra htnf
  exact main (rank t + 1) t htk htnf (by omega)

theorem cycle_closure (cs : List (Nat × SchedulerSystemContainer)) (l : List Nat)
    (hcy : CycleIn cs l) : ∀ t ∈ l, ∃ a ∈ l, t ∈ dependantsOf cs a := by
  obtain ⟨hne, hstep⟩ := hcy
  intro t ht
  obtain ⟨i, hi, hgt⟩ := List.getElem_of_mem ht
  have hlen : 0 < l.length := List.length_pos.mpr hne
  have hj : (i + 1) % l.length < l.length := Nat.mod_lt _ hlen
  refine ⟨l.getD ((i + 1) % l.length) 0, ?_, ?_⟩
  · rw [List.getD_eq_getElem l 0 hj]
    exact List.getElem_mem hj
  · have hs := hstep i hi
    rw [List.getD_eq_getElem l 0 hi, hgt] at hs
    exact hs

theorem cycle_not_finished (s0 : UnorderedSchedulerSystem) (w : World)
    (h1 : s0.queued = []) (h2 : s0.running = []) (h3 : s0.dependants_scratch = [])
    (hwf : GraphWF s0.system_containers) (l : List Nat)
    (hcy : CycleIn s0.system_containers l) (k : Nat) (r : RunState)
    (htr : RunTraceN (initialState s0 w) k r) : ∀ t ∈ l, t ∉ r.finished := by
  induction htr with
  | refl =>
    intro t ht hmem
    cases hmem
  | step k s fin batch htr hvb ih =>
    intro t ht hmem
    rcases List.mem_append.mp hmem with hm | hm
    · exact ih t ht hm
    · have hrun : t ∈ (start_all_runnable_queued_systems s).running := hvb.2.2 t hm
      have hinv : SchedInv ⟨s, fin⟩ := schedInv_traceN s0 w k ⟨s, fin⟩ h1 h2 h3 hwf htr
      have hinv' : SchedInv ⟨start_all_runnable_queued_systems s, fin⟩ :=
        schedInv_start s fin hinv
      obtain ⟨a, hal, hdep⟩ := cycle_closure s0.system_containers l hcy t ht
      have hstep1 : dependantsOf s.system_containers a
          = dependantsOf (prepare s0 w).system_containers a :=
        dependantsOf_traceN (initialState s0 w) k ⟨s, fin⟩ htr a
      have hpres : dependantsOf s.system_containers a
          = dependantsOf s0.system_containers a := by
        rw [hstep1, prepare_dependantsOf]
      have hdep' : t ∈ dependantsOf
          (start_all_runnable_queued_systems s).system_containers a := by
        show t ∈ dependantsOf s.system_containers a
        rw [hpres]
        exact hdep
      have hafin : a ∈ fin :=
        schedInv_deps_finished ⟨start_all_runnable_queued_systems s, fin⟩ hinv' t
          (Or.inl hrun) a hdep'
      exact ih a hal hafin

theorem cycle_blocked (s0 : UnorderedSchedulerSystem) (w : World)
    (h1 : s0.queued = []) (h2 : s0.running = []) (h3 : s0.dependants_scratch = [])
    (hwf : GraphWF s0.system_containers) (l : List Nat)
    (hcy : CycleIn s0.system_containers l) (k : Nat) (r : RunState)
    (htr : RunTraceN (initialState s0 w) k r) :
    ∀ t ∈ l, t ∉ r.finished ∧ t ∉ r.sched.queued ∧ t ∉ r.sched.running ∧
      0 < depsNowOf r.sched.system_containers t := by
  intro t ht
  have hnf : ∀ t' ∈ l, t' ∉ r.finished :=
    cycle_not_finished s0 w h1 h2 h3 hwf l hcy k r htr
  have hinv := schedInv_traceN s0 w k r h1 h2 h3 hwf htr
  obtain ⟨a, hal, hdep⟩ := cycle_closure s0.system_containers l hcy t ht
  have hak : a ∈ keysOf s0.system_containers := by
    unfold dependantsOf at hdep
    cases hl : lookupC s0.system_containers a with
    | none => rw [hl] at hdep; cases hdep
    | some c => exact (lookupC_isSome_iff_mem _ _).mp (by rw [hl]; rfl)
  have htk0 : t ∈ keysOf s0.system_containers := hwf.2.1 a hak t hdep
  have htk : t ∈ keysOf r.sched.system_containers := by
    rw [keysOf_traceN (initialState s0 w) k r htr]
    show t ∈ keysOf (prepare s0 w).system_containers
    rw [prepare_keysOf]
    exact htk0
  have hdep_r : t ∈ dependantsOf r.sched.system_containers a := by
    rw [dependantsOf_traceN (initialState s0 w) k r htr a]
    show t ∈ dependantsOf (prepare s0 w).system_containers a
    rw [prepare_dependantsOf]
    exact hdep
  have hnz : depsNowOf r.sched.system_containers t ≠ 0 := by
    intro h0
    exact hnf a hal (schedInv_deps_of_zero r hinv t htk h0 a hdep_r)
  have hnq : t ∉ r.sched.queued := fun hq => hnz (hinv.active_zero t (Or.inl hq))
  have hnr : t ∉ r.sched.running := fun hrr => hnz (hinv.active_zero t (Or.inr (Or.inl hrr)))
  exact ⟨hnf t ht, hnq, hnr, Nat.pos_of_ne_zero hnz⟩

/-- Claim C3: for a well-formed graph, every execution of the `run_systems` loop performs
at most one iteration per task (termination bound), and is deadlock-free: while the exit
condition (`queued` and `running` both empty) fails, some valid completion burst exists.
If the depends-on graph is acyclic, whenever the loop exits every task has finished
exactly once — the completion history is duplicate-free and a permutation of the task
ids — and `queued` and `running` are empty.  Conversely, if the graph has a cycle, the
tasks on the cycle never reach `deps_now = 0`, are never queued, started or finished, so
the run never completes. -/
theorem c3_termination_completeness (s0 : UnorderedSchedulerSystem) (w : World)
    (h1 : s0.queued = []) (h2 : s0.running = []) (h3 : s0.dependants_scratch = [])
    (hwf : GraphWF s0.system_containers) :
    (∀ k r, RunTraceN (initialState s0 w) k r →
      k ≤ (keysOf s0.system_containers).length) ∧
    (∀ k r, RunTraceN (initialState s0 w) k r → ¬ loopDone r.sched →
      ∃ batch, ValidBatch r.sched batch) ∧
    (Acyclic s0.system_containers → ∀ k r, RunTraceN (initialState s0 w) k r →
      loopDone r.sched →
      (List.Perm r.finished (keysOf r.sched.system_containers) ∧
        r.sched.queued = [] ∧ r.sched.running = [])) ∧
    (∀ l, CycleIn s0.system_containers l → ∀ k r, RunTraceN (initialState s0 w) k r →
      ∀ t ∈ l, t ∉ r.finished ∧ t ∉ r.sched.queued ∧ t ∉ r.sched.running ∧
        0 < depsNowOf r.sched.system_containers t) := by
  refine ⟨?_, ?_, ?_, ?_⟩
  · intro k r htr
    have hinv := schedInv_traceN s0 w k r h1 h2 h3 hwf htr
    have hlen := traceN_length (initialState s0 w) k r htr
    have hlen' : k ≤ r.finished.length := by
      have h' : ([] : List Nat).length + k ≤ r.finished.length := hlen
      simpa using h'
    have hle := (List.subperm_of_subset hinv.finished_nodup hinv.finished_keys).length_le
    have hk : keysOf r.sched.system_containers = keysOf s0.system_containers := by
      rw [keysOf_traceN _ _ _ htr]
      show keysOf (prepare s0 w).system_containers = _
      exact prepare_keysOf s0 w
    rw [hk] at hle
    omega
  · intro k r htr hnd
    have hinv := schedInv_traceN s0 w k r h1 h2 h3 hwf htr
    exact progress_exists_batch r.sched hinv.queued_keys hnd
  · intro hacyc k r htr hdone
    have hinv := schedInv_traceN s0 w k r h1 h2 h3 hwf htr
    have hscr := traceN_scratch s0 w k r h3 htr
    have hk : keysOf r.sched.system_containers = keysOf s0.system_containers := by
      rw [keysOf_traceN _ _ _ htr]
      show keysOf (prepare s0 w).system_containers = _
      exact prepare_keysOf s0 w
    have hd : ∀ a, dependantsOf r.sched.system_containers a
        = dependantsOf s0.system_containers a := by
      intro a
      rw [dependantsOf_traceN _ _ _ htr a]
      show dependantsOf (prepare s0 w).system_containers a = _
      exact prepare_dependantsOf s0 w a
    have hacyc' : Acyclic r.sched.system_containers := by
      obtain ⟨rank, hrank⟩ := hacyc
      exact ⟨rank, fun a ha t htd => hrank a (hk ▸ ha) t (by rw [hd a] at htd; exact htd)⟩
    have hall := done_all_finished r hinv hscr hacyc' hdone
    exact ⟨(List.subperm_of_subset hinv.finished_nodup hinv.finished_keys).antisymm
      (List.subperm_of_subset hinv.graphWF.1 hall), hdone.1, hdone.2⟩
  · intro l hcy k r htr
    exact cycle_blocked s0 w h1 h2 h3 hwf l hcy k r htr

theorem c3_witness :
    List.Perm (([] ++ [0]) ++ [1])
      (keysOf (loopIteration (loopIteration (prepare graphSched sampleWorld) [0])
        [1]).system_containers) ∧
    (loopIteration (loopIteration (prepare graphSched sampleWorld) [0]) [1]).queued = [] ∧
    (loopIteration (loopIteration (prepare graphSched sampleWorld) [0]) [1]).running
      = [] :=
  (c3_termination_completeness graphSched sampleWorld rfl rfl rfl
      ⟨by decide, by decide, by decide⟩).2.2.1
    ⟨fun t => t, by decide⟩ 2 _
    (RunTraceN.step (initialState graphSched sampleWorld) 1
      (loopIteration (prepare graphSched sampleWorld) [0]) ([] ++ [0]) [1]
      (RunTraceN.step (initialState graphSched sampleWorld) 0
        (prepare graphSched sampleWorld) [] [0]
        (RunTraceN.refl (initialState graphSched sampleWorld))
        ⟨by decide, by decide, by decide⟩)
      ⟨by decide, by decide, by decide⟩)
    ⟨by decide, by decide⟩

theorem lookupB_nil (k : String) : lookupB [] k = none := rfl

theorem lookupB_cons (hd : String × BuilderSystemContainer)
    (tl : List (String × BuilderSystemContainer)) (k : String) :
    lookupB (hd :: tl) k = if hd.1 = k then some hd.2 else lookupB tl k := by
  simp only [lookupB, List.find?]
  by_cases h : hd.1 = k
  · simp [h]
  · simp [h, beq_eq_false_iff_ne.mpr h]

theorem lookupB_map_replace_of_any :
    ∀ (m : List (String × BuilderSystemContainer)) (k : String)
      (v : BuilderSystemContainer), m.any (fun p => p.1 == k) = true →
      lookupB (m.map (fun p => if p.1 = k then (k, v) else p)) k = some v := by
  intro m
  induction m with
  | nil =>
    intro k v h
    simp at h
  | cons hd tl ih =>
    intro k v hany
    rw [List.map_cons]
    by_cases hh : hd.1 = k
    · rw [if_pos hh, lookupB_cons]
      simp
    · rw [if_neg hh, lookupB_cons, if_neg hh]
      apply ih k v
      rcases List.any_eq_true.mp hany with ⟨p, hp, hpk⟩
      rcases List.mem_cons.mp hp with h' | hp'
      · exact absurd (by rw [h'] at hpk; simpa using hpk) hh
      · exact List.any_eq_true.mpr ⟨p, hp', hpk⟩

theorem lookupB_append_single_of_not_any :
    ∀ (m : List (String × BuilderSystemContainer)) (k : String)
      (v : BuilderSystemContainer), ¬(m.any (fun p => p.1 == k) = true) →
      lookupB (m ++ [(k, v)]) k = some v := by
  intro m
  induction m with
  | nil =>
    intro k v _
    rw [List.nil_append, lookupB_cons, if_pos rfl]
  | cons hd tl ih =>
    intro k v hany
    rw [List.cons_append, lookupB_cons]
    have hh : hd.1 ≠ k := by
      intro he
      exact hany (List.any_eq_true.mpr ⟨hd, List.mem_cons_self hd tl, by simpa using he⟩)
    rw [if_neg hh]
    apply ih k v
    intro hc
    rcases List.any_eq_true.mp hc with ⟨p, hp, hpk⟩
    exact hany (List.any_eq_true.mpr ⟨p, List.mem_cons_of_mem hd hp, hpk⟩)

theorem lookupB_map_replace_ne :
    ∀ (m : List (String × BuilderSystemContainer)) (k : String)
      (v : BuilderSystemContainer) (k' : String), k' ≠ k →
      lookupB (m.map (fun p => if p.1 = k then (k, v) else p)) k' = lookupB m k' := by
  intro m
  induction m with
  | nil => intro k v k' _; rfl
  | cons hd tl ih =>
    intro k v k' hne
    rw [List.map_cons]
    by_cases hh : hd.1 = k
    · rw [if_pos hh, lookupB_cons, lookupB_cons]
      have h1 : k ≠ k' := fun he => hne he.symm
      rw [if_neg h1]
      have h2 : hd.1 ≠ k' := by rw [hh]; exact h1
      rw [if_neg h2]
      exact ih k v k' hne
    · rw [if_neg hh, lookupB_cons, lookupB_cons]
      by_cases h2 : hd.1 = k'
      · rw [if_pos h2, if_pos h2]
      · rw [if_neg h2, if_neg h2]
        exact ih k v k' hne

theorem lookupB_append_single_ne :
    ∀ (m : List (String × BuilderSystemContainer)) (k : String)
      (v : BuilderSystemContainer) (k' : String), k' ≠ k →
      lookupB (m ++ [(k, v)]) k' = lookupB m k' := by
  intro m
  induction m with
  | nil =>
    intro k v k' hne
    rw [List.nil_append, lookupB_cons, lookupB_nil]
    have : k ≠ k' := fun he => hne he.symm
    rw [if_neg this]
  | cons hd tl ih =>
    intro k v k' hne
    rw [List.cons_append, lookupB_cons, lookupB_cons]
    by_cases h2 : hd.1 = k'
    · rw [if_pos h2, if_pos h2]
    · rw [if_neg h2, if_neg h2]
      exact ih k v k' hne

theorem lookupB_insertB_self (m : List (String × BuilderSystemContainer)) (k : String)
    (v : BuilderSystemContainer) : lookupB (insertB m k v) k = some v := by
  unfold insertB
  by_cases hany : m.any (fun p => p.1 == k)
  · rw [if_pos hany]
    exact lookupB_map_replace_of_any m k v hany
  · rw [if_neg hany]
    exact lookupB_append_single_of_not_any m k v hany

theorem lookupB_insertB_ne (m : List (String × BuilderSystemContainer)) (k : String)
    (v : BuilderSystemContainer) (k' : String) (h : k' ≠ k) :
    lookupB (insertB m k v) k' = lookupB m k' := by
  unfold insertB
  by_cases hany : m.any (fun p => p.1 == k)
  · rw [if_pos hany]
    exact lookupB_map_replace_ne m k v k' h
  · rw [if_neg hany]
    exact lookupB_append_single_ne m k v k' h

theorem insertB_ne_nil (m : List (String × BuilderSystemContainer)) (k : String)
    (v : BuilderSystemContainer) : insertB m k v ≠ [] := by
  unfold insertB
  by_cases hany : m.any (fun p => p.1 == k)
  · rw [if_pos hany]
    intro h
    rw [List.map_eq_nil_iff] at h
    rw [h] at hany
    simp at hany
  · rw [if_neg hany]
    simp

theorem lookupB_isSome_any (m : List (String × BuilderSystemContainer)) (k : String) :
    (lookupB m k).isSome = true ↔ m.any (fun p => p.1 == k) = true := by
  induction m with
  | nil => simp [lookupB_nil]
  | cons hd tl ih =>
    rw [lookupB_cons, List.any_cons]
    by_cases h : hd.1 = k
    · simp [h]
    · simp only [if_neg h, Bool.or_eq_true]
      rw [ih]
      constructor
      · intro hh
        exact Or.inr hh
      · intro hh
        rcases hh with hh | hh
        · exact absurd (by simpa using hh) h
        · exact hh

theorem insertB_length_of_any (m : List (String × BuilderSystemContainer)) (k : String)
    (v : BuilderSystemContainer) (h : m.any (fun p => p.1 == k) = true) :
    (insertB m k v).length = m.length := by
  unfold insertB
  rw [if_pos h]
  exact List.length_map m _

theorem depends_on_none (s : UnorderedScheduler) (d : String) (h : s.last_added = none) :
    depends_on s d = none := by
  unfold depends_on
  simp only [h]

theorem depends_on_no_entry (s : UnorderedScheduler) (d : String) (last : String)
    (h : s.last_added = some last) (h2 : lookupB s.system_containers last = none) :
    depends_on s d = none := by
  unfold depends_on
  simp only [h, h2]

theorem depends_on_entry (s : UnorderedScheduler) (d : String) (last : String)
    (c : BuilderSystemContainer) (h : s.last_added = some last)
    (h2 : lookupB s.system_containers last = some c) :
    depends_on s d = some { s with
      system_containers :=
        insertB s.system_containers last
          { c with dependencies := c.dependencies ++ [d] } } := by
  unfold depends_on
  simp only [h, h2]

theorem builder_inv (b : UnorderedScheduler) (hb : BuilderReachable b) :
    (b.last_added = none ↔ b.system_containers = []) ∧
    (∀ n, b.last_added = some n → (lookupB b.system_containers n).isSome = true) := by
  induction hb with
  | new =>
    exact ⟨⟨fun _ => rfl, fun _ => rfl⟩, fun n h => by cases h⟩
  | withName s n hs ih => exact ih
  | addNamed s n sys hs ih =>
    constructor
    · constructor
      · intro h
        cases h
      · intro h
        exact absurd h (insertB_ne_nil s.system_containers n _)
    · intro m hm
      obtain rfl : n = m := by injection (show some n = some m from hm)
      have h' : lookupB (add_named_system s n sys).system_containers n
          = some { system := sys, dependencies := [] } :=
        lookupB_insertB_self s.system_containers n _
      rw [h']
      rfl
  | add s sys hs ih =>
    constructor
    · constructor
      · intro h
        cases h
      · intro h
        exact absurd h (insertB_ne_nil s.system_containers sys.sysName _)
    · intro m hm
      obtain rfl : sys.sysName = m := by injection (show some sys.sysName = some m from hm)
      have h' : lookupB (add_system s sys).system_containers sys.sysName
          = some { system := sys, dependencies := [] } :=
        lookupB_insertB_self s.system_containers sys.sysName _
      rw [h']
      rfl
  | dep s d s' hs hdep ih =>
    cases hl : s.last_added with
    | none =>
      rw [depends_on_none s d hl] at hdep
      cases hdep
    | some last =>
      cases hc : lookupB s.system_containers last with
      | none =>
        rw [depends_on_no_entry s d last hl hc] at hdep
        cases hdep
      | some c =>
        rw [depends_on_entry s d last c hl hc] at hdep
        obtain rfl : { s with
            system_containers :=
              insertB s.system_containers last
                { c with dependencies := c.dependencies ++ [d] } } = s' := by
          injection hdep
        constructor
        · constructor
          · intro h
            have h' : s.last_added = none := h
            rw [hl] at h'
            cases h'
          · intro h
            exact absurd h (insertB_ne_nil s.system_containers last _)
        · intro m hm
          have hm' : s.last_added = some m := hm
          rw [hl] at hm'
          obtain rfl : last = m := by injection hm'
          have h' : lookupB (insertB s.system_containers last
              { c with dependencies := c.dependencies ++ [d] }) last
              = some { c with dependencies := c.dependencies ++ [d] } :=
            lookupB_insertB_self s.system_containers last _
          show (lookupB (insertB s.system_containers last
            { c with dependencies := c.dependencies ++ [d] }) last).isSome = true
          rw [h']
          rfl

/-- Claim C8: when a name is already registered, `add_named_system` with that name
silently replaces the stored system and discards its recorded dependency list, returning
a builder with the same number of registered tasks and no error; the name becomes
`last_added`, so it is the target of subsequent `depends_on` calls; and `add_system`
delegates to `add_named_system` with the system's self-reported default name. -/
theorem c8_duplicate_name_replaces (b : UnorderedScheduler) (name : String)
    (sys : BoxedSystem) (hreg : (lookupB b.system_containers name).isSome = true) :
    ((add_named_system b name sys).system_containers.length
      = b.system_containers.length) ∧
    (lookupB (add_named_system b name sys).system_containers name
      = some { system := sys, dependencies := [] }) ∧
    (∀ m, m ≠ name → lookupB (add_named_system b name sys).system_containers m
      = lookupB b.system_containers m) ∧
    ((add_named_system b name sys).last_added = some name) ∧
    (∀ sys2 : BoxedSystem, add_system b sys2 = add_named_system b sys2.sysName sys2) := by
  have hany := (lookupB_isSome_any b.system_containers name).mp hreg
  refine ⟨?_, ?_, ?_, rfl, fun sys2 => rfl⟩
  · exact insertB_length_of_any b.system_containers name _ hany
  · exact lookupB_insertB_self b.system_containers name _
  · intro m hm
    exact lookupB_insertB_ne b.system_containers name _ m hm

theorem c8_witness :
    ((add_named_system (add_named_system UnorderedScheduler.new "A" sysA) "A"
        sysB).system_containers.length
      = (add_named_system UnorderedScheduler.new "A" sysA).system_containers.length) ∧
    (lookupB (add_named_system (add_named_system UnorderedScheduler.new "A" sysA) "A"
        sysB).system_containers "A"
      = some { system := sysB, dependencies := [] }) ∧
    (∀ m, m ≠ "A" → lookupB (add_named_system (add_named_system UnorderedScheduler.new
        "A" sysA) "A" sysB).system_containers m
      = lookupB (add_named_system UnorderedScheduler.new "A" sysA).system_containers m) ∧
    ((add_named_system (add_named_system UnorderedScheduler.new "A" sysA) "A"
        sysB).last_added = some "A") ∧
    (∀ sys2 : BoxedSystem, add_system (add_named_system UnorderedScheduler.new "A" sysA)
        sys2
      = add_named_system (add_named_system UnorderedScheduler.new "A" sysA)
        sys2.sysName sys2) :=
  c8_duplicate_name_replaces (add_named_system UnorderedScheduler.new "A" sysA) "A" sysB
    rfl

/-- Claim C9: `depends_on` panics (modelled as `none`; the source's `expect` message is
"unable to add a dependency: insert a system first") exactly when no system has yet been
added — for builder states reachable through the API, `last_added` is `none` iff the
container map is empty; otherwise it appends the given dependency name, unvalidated and
with duplicates allowed, to the dependency list of the most recently added system and
leaves every other task's state, and the rest of the builder, unchanged. -/
theorem c9_depends_on_panics_or_appends (b : UnorderedScheduler) (hb : BuilderReachable b)
    (d : String) :
    (depends_on b d = none ↔ b.system_containers = []) ∧
    (∀ n, b.last_added = some n →
      ∃ c b', lookupB b.system_containers n = some c ∧ depends_on b d = some b' ∧
        b'.last_added = some n ∧ b'.name = b.name ∧
        lookupB b'.system_containers n
          = some { c with dependencies := c.dependencies ++ [d] } ∧
        (∀ m, m ≠ n → lookupB b'.system_containers m = lookupB b.system_containers m) ∧
        b'.system_containers.length = b.system_containers.length) := by
  obtain ⟨hiff, hsome⟩ := builder_inv b hb
  have main : ∀ n, b.last_added = some n →
      ∃ c b', lookupB b.system_containers n = some c ∧ depends_on b d = some b' ∧
        b'.last_added = some n ∧ b'.name = b.name ∧
        lookupB b'.system_containers n
          = some { c with dependencies := c.dependencies ++ [d] } ∧
        (∀ m, m ≠ n → lookupB b'.system_containers m = lookupB b.system_containers m) ∧
        b'.system_containers.length = b.system_containers.length := by
    intro n hl
    obtain ⟨c, hc⟩ := Option.isSome_iff_exists.mp (hsome n hl)
    have hany := (lookupB_isSome_any b.system_containers n).mp (by rw [hc]; rfl)
    have hdef : depends_on b d = some { b with
        system_containers :=
          insertB b.system_containers n
            { c with dependencies := c.dependencies ++ [d] } } :=
      depends_on_entry b d n c hl hc
    refine ⟨c, _, hc, hdef, ?_, rfl, ?_, ?_, ?_⟩
    · show b.last_added = some n
      exact hl
    · exact lookupB_insertB_self b.system_containers n _
    · intro m hm
      exact lookupB_insertB_ne b.system_containers n _ m hm
    · exact insertB_length_of_any b.system_containers n _ hany
  refine ⟨?_, main⟩
  constructor
  · intro hn
    cases hl : b.last_added with
    | none => exact hiff.mp hl
    | some n =>
      obtain ⟨c, b', _, hdef, _⟩ := main n hl
      rw [hdef] at hn
      cases hn
  · intro hz
    have hl : b.last_added = none := hiff.mpr hz
    unfold depends_on
    rw [hl]

theorem c9_witness :
    (depends_on (add_named_system UnorderedScheduler.new "A" sysA) "X" = none ↔
      (add_named_system UnorderedScheduler.new "A" sysA).system_containers = []) ∧
    (∀ n, (add_named_system UnorderedScheduler.new "A" sysA).last_added = some n →
      ∃ c b', lookupB (add_named_system UnorderedScheduler.new "A"
          sysA).system_containers n = some c ∧
        depends_on (add_named_system UnorderedScheduler.new "A" sysA) "X" = some b' ∧
        b'.last_added = some n ∧
        b'.name = (add_named_system UnorderedScheduler.new "A" sysA).name ∧
        lookupB b'.system_containers n
          = some { c with dependencies := c.dependencies ++ ["X"] } ∧
        (∀ m, m ≠ n → lookupB b'.system_containers m
          = lookupB (add_named_system UnorderedScheduler.new "A"
              sysA).system_containers m) ∧
        b'.system_containers.length = (add_named_system UnorderedScheduler.new "A"
          sysA).system_containers.length) :=
  c9_depends_on_panics_or_appends (add_named_system UnorderedScheduler.new "A" sysA)
    (BuilderReachable.addNamed UnorderedScheduler.new "A" sysA BuilderReachable.new) "X"

theorem innerFold_none (dpt : Nat) (names : List String) :
    names.foldl (fun acc' dependee => acc'.bind (fun mm => pushDependant mm dependee dpt))
      none = none := by
  induction names with
  | nil => rfl
  | cons nm names ih =>
    rw [List.foldl_cons]
    exact ih

theorem outerFold_none (deps : List (Nat × List String)) :
    deps.foldl (fun acc d => d.2.foldl
      (fun acc' dependee => acc'.bind (fun mm => pushDependant mm dependee d.1)) acc)
      none = none := by
  induction deps with
  | nil => rfl
  | cons d deps ih =>
    rw [List.foldl_cons, innerFold_none]
    exact ih

theorem pushDependant_none (m : List (String × Nat × SchedulerSystemContainer))
    (dependee : String) (dpt : Nat) (h : m.any (fun p => p.1 == dependee) = false) :
    pushDependant m dependee dpt = none := by
  unfold pushDependant
  rw [if_neg (by rw [h]; exact Bool.false_ne_true)]

theorem pushDependant_some_keys (m : List (String × Nat × SchedulerSystemContainer))
    (dependee : String) (dpt : Nat) (h : m.any (fun p => p.1 == dependee) = true) :
    ∃ m', pushDependant m dependee dpt = some m' ∧
      m'.map (fun p => p.1) = m.map (fun p => p.1) := by
  unfold pushDependant
  rw [if_pos h]
  refine ⟨_, rfl, ?_⟩
  rw [List.map_map]
  apply List.map_congr_left
  intro p _
  by_cases hp : p.1 = dependee <;> simp [hp]

theorem any_key_eq :
    ∀ (m₁ m₂ : List (String × Nat × SchedulerSystemContainer)) (name : String),
    m₁.map (fun p => p.1) = m₂.map (fun p => p.1) →
    m₁.any (fun p => p.1 == name) = m₂.any (fun p => p.1 == name) := by
  intro m₁
  induction m₁ with
  | nil =>
    intro m₂ name h
    have h2 : m₂.map (fun p => p.1) = [] := h.symm
    rw [List.map_eq_nil_iff] at h2
    rw [h2]
  | cons a as ih =>
    intro m₂ name h
    cases m₂ with
    | nil => simp at h
    | cons b bs =>
      simp only [List.map_cons, List.cons.injEq] at h
      rw [List.any_cons, List.any_cons, h.1, ih bs name h.2]

theorem innerFold_spec (dpt : Nat) :
    ∀ (names : List String) (m : List (String × Nat × SchedulerSystemContainer)),
    ((names.foldl (fun acc' dependee => acc'.bind (fun mm => pushDependant mm dependee dpt))
      (some m)).isSome = true ↔ ∀ name ∈ names, m.any (fun p => p.1 == name) = true) ∧
    (∀ m', names.foldl (fun acc' dependee => acc'.bind (fun mm => pushDependant mm dependee dpt))
      (some m) = some m' → m'.map (fun p => p.1) = m.map (fun p => p.1)) := by
  intro names
  induction names with
  | nil =>
    intro m
    constructor
    · simp
    · intro m' h
      obtain rfl : m = m' := by injection h
      rfl
  | cons nm names ih =>
    intro m
    rw [List.foldl_cons]
    cases hany : m.any (fun p => p.1 == nm) with
    | false =>
      have hp := pushDependant_none m nm dpt hany
      have hstep : (some m).bind (fun mm => pushDependant mm nm dpt) = none := by
        rw [Option.some_bind, hp]
      rw [hstep, innerFold_none]
      constructor
      · constructor
        · intro h
          cases h
        · intro hall
          have := hall nm (List.mem_cons_self nm names)
          rw [hany] at this
          cases this
      · intro m' h
        cases h
    | true =>
      obtain ⟨m₁, hp, hkeys⟩ := pushDependant_some_keys m nm dpt hany
      have hstep : (some m).bind (fun mm => pushDependant mm nm dpt) = some m₁ := by
        rw [Option.some_bind, hp]
      rw [hstep]
      obtain ⟨ih1, ih2⟩ := ih m₁
      constructor
      · rw [ih1]
        constructor
        · intro hall
          intro name hn
          rcases List.mem_cons.mp hn with h' | h'
          · rw [h']
            exact hany
          · rw [← any_key_eq m₁ m name hkeys]
            exact hall name h'
        · intro hall name hn
          rw [any_key_eq m₁ m name hkeys]
          exact hall name (List.mem_cons_of_mem nm hn)
      · intro m' h
        rw [ih2 m' h, hkeys]

theorem resolveAll_spec :
    ∀ (deps : List (Nat × List String)) (m : List (String × Nat × SchedulerSystemContainer)),
    ((resolveAll m deps).isSome = true ↔
      ∀ d ∈ deps, ∀ name ∈ d.2, m.any (fun p => p.1 == name) = true) ∧
    (∀ m', resolveAll m deps = some m' → m'.map (fun p => p.1) = m.map (fun p => p.1)) := by
  intro deps
  induction deps with
  | nil =>
    intro m
    constructor
    · simp [resolveAll]
    · intro m' h
      obtain rfl : m = m' := by
        have h' : some m = some m' := h
        injection h'
      rfl
  | cons d deps ih =>
    intro m
    have hres : resolveAll m (d :: deps) = deps.foldl (fun acc dd => dd.2.foldl
        (fun acc' dependee => acc'.bind (fun mm => pushDependant mm dependee dd.1)) acc)
        (d.2.foldl (fun acc' dependee => acc'.bind (fun mm => pushDependant mm dependee d.1))
          (some m)) := rfl
    obtain ⟨in1, in2⟩ := innerFold_spec d.1 d.2 m
    cases hin : d.2.foldl (fun acc' dependee => acc'.bind
        (fun mm => pushDependant mm dependee d.1)) (some m) with
    | none =>
      rw [hres, hin, outerFold_none]
      constructor
      · constructor
        · intro h
          cases h
        · intro hall
          have h1 : (none : Option (List (String × Nat × SchedulerSystemContainer))).isSome
              = true := by
            rw [← hin]
            exact in1.mpr (fun name hn => hall d (List.mem_cons_self d deps) name hn)
          cases h1
      · intro m' h
        cases h
    | some m₁ =>
      have hkeys := in2 m₁ hin
      obtain ⟨o1, o2⟩ := ih m₁
      have hres2 : resolveAll m (d :: deps) = resolveAll m₁ deps := by
        rw [hres, hin]
        rfl
      constructor
      · rw [hres2, o1]
        constructor
        · intro hall
          intro dd hdd name hn
          rcases List.mem_cons.mp hdd with h' | h'
          · subst h'
            have : (some m₁).isSome = true := rfl
            rw [← hin] at this
            exact in1.mp this name hn
          · rw [← any_key_eq m₁ m name hkeys]
            exact hall dd h' name hn
        · intro hall dd hdd name hn
          rw [any_key_eq m₁ m name hkeys]
          exact hall dd (List.mem_cons_of_mem d hdd) name hn
      · intro m' h
        rw [hres2] at h
        rw [o2 m' h, hkeys]

theorem isSome_option_map (o : Option (List (String × Nat × SchedulerSystemContainer)))
    (f : List (String × Nat × SchedulerSystemContainer) → UnorderedSchedulerSystem) :
    (o.map f).isSome = o.isSome := by
  cases o <;> rfl

/-- Claim C4 counterexample: in this builder every declared dependency name ("A") is a
name under which a task is registered, yet finalization produces no scheduler:
`into_system` resolves dependency names against the systems' self-reported names
("sysA", "sysB"), not the registration keys, and the failure is the
`unwrap_or_else(|| unreachable!())` panic (modelled as `none`), not an
`UnknownDependency` error value returned to the caller. -/
theorem c4_counterexample :
    (depends_on (add_named_system (add_named_system UnorderedScheduler.new "A" sysA)
        "B" sysB) "A" = some bCex) ∧
    (∀ p ∈ bCex.system_containers, ∀ dep ∈ p.2.dependencies,
      (lookupB bCex.system_containers dep).isSome = true) ∧
    into_system bCex = none := by
  refine ⟨by decide, by decide, by decide⟩

/-- Claim C4 (amended): finalization by `into_system` produces a scheduler iff every
declared dependency name equals the SELF-REPORTED name (`system.name()`) of some
registered system — the user-given registration keys play no part in resolution — and an
unresolved name makes `into_system` panic (`unreachable!`, modelled as `none`), producing
no scheduler and returning no error value naming the offending pair. -/
theorem c4_into_system_resolution (b : UnorderedScheduler) :
    (into_system b).isSome = true ↔
      ∀ p ∈ b.system_containers, ∀ dep ∈ p.2.dependencies,
        ∃ q ∈ b.system_containers, q.2.system.sysName = dep := by
  have hmain : (into_system b).isSome
      = (resolveAll (b.system_containers.map (fun p =>
          (p.2.system.sysName, p.2.system.sysId,
           { resource_access := p.2.system.resource_access,
             archetype_access := p.2.system.archetype_access,
             dependants := [],
             deps_total := p.2.dependencies.length,
             deps_now := 0 })))
          (b.system_containers.map (fun p =>
            (p.2.system.sysId, p.2.dependencies)))).isSome := by
    unfold into_system
    exact isSome_option_map _ _
  rw [hmain, (resolveAll_spec _ _).1]
  constructor
  · intro hall p hp dep hdep
    have h := hall (p.2.system.sysId, p.2.dependencies)
      (List.mem_map.mpr ⟨p, hp, rfl⟩) dep hdep
    rcases List.any_eq_true.mp h with ⟨q, hq, hqk⟩
    rcases List.mem_map.mp hq with ⟨p', hp', rfl⟩
    exact ⟨p', hp', by simpa using hqk⟩
  · intro hall d hd name hn
    rcases List.mem_map.mp hd with ⟨p, hp, rfl⟩
    obtain ⟨q, hq, hqn⟩ := hall p hp name hn
    exact List.any_eq_true.mpr
      ⟨_, List.mem_map.mpr ⟨q, hq, rfl⟩, by simpa using hqn⟩

theorem c4_witness : (into_system bGood).isSome = true :=
  (c4_into_system_resolution bGood).mpr (by decide)

theorem stage_index_eq_tableLookup (s : Schedule) (label : Nat) :
    stage_index s label = tableLookup s.index_table label := rfl

theorem tableLookup_nil (label : Nat) : tableLookup [] label = none := rfl

theorem tableLookup_cons (hd : Nat × Nat) (tl : List (Nat × Nat)) (label : Nat) :
    tableLookup (hd :: tl) label = if hd.1 = label then some hd.2 else tableLookup tl label := by
  simp only [tableLookup, List.find?]
  by_cases h : hd.1 = label
  · simp [h]
  · simp [h, beq_eq_false_iff_ne.mpr h]

theorem tableLookup_map_adjust (tbl : List (Nat × Nat)) (label : Nat) (f : Nat → Nat) :
    tableLookup (tbl.map (fun p => (p.1, f p.2))) label = (tableLookup tbl label).map f := by
  induction tbl with
  | nil => rfl
  | cons hd tl ih =>
    rw [List.map_cons, tableLookup_cons, tableLookup_cons]
    by_cases h : hd.1 = label
    · simp [h]
    · simp only [h, if_false, if_neg h]
      exact ih

theorem tableLookup_append_single_self (tbl : List (Nat × Nat)) (label i : Nat)
    (h : label ∉ tbl.map (fun p => p.1)) :
    tableLookup (tbl ++ [(label, i)]) label = some i := by
  induction tbl with
  | nil => rw [List.nil_append, tableLookup_cons, if_pos rfl]
  | cons hd tl ih =>
    rw [List.cons_append, tableLookup_cons]
    have hne : hd.1 ≠ label := by
      intro he
      exact h (List.mem_map.mpr ⟨hd, List.mem_cons_self hd tl, he⟩)
    rw [if_neg hne]
    exact ih (fun hc => h (by
      rcases List.mem_map.mp hc with ⟨p, hp, he⟩
      exact List.mem_map.mpr ⟨p, List.mem_cons_of_mem hd hp, he⟩))

theorem tableLookup_append_single_ne (tbl : List (Nat × Nat)) (label i l : Nat)
    (h : l ≠ label) : tableLookup (tbl ++ [(label, i)]) l = tableLookup tbl l := by
  induction tbl with
  | nil =>
    rw [List.nil_append, tableLookup_cons, tableLookup_nil]
    have : label ≠ l := fun he => h he.symm
    rw [if_neg this]
  | cons hd tl ih =>
    rw [List.cons_append, tableLookup_cons, tableLookup_cons]
    by_cases h2 : hd.1 = l
    · rw [if_pos h2, if_pos h2]
    · rw [if_neg h2, if_neg h2]
      exact ih

theorem tableLookup_filter_out (tbl : List (Nat × Nat)) (label l : Nat) :
    tableLookup (tbl.filter (fun p => !(p.1 == label))) l
      = if l = label then none else tableLookup tbl l := by
  induction tbl with
  | nil =>
    rw [List.filter_nil, tableLookup_nil]
    by_cases h : l = label <;> simp [h, tableLookup_nil]
  | cons hd tl ih =>
    rw [List.filter_cons]
    by_cases hh : hd.1 = label
    · rw [if_neg (by simp [hh])]
      rw [ih]
      by_cases hl : l = label
      · rw [if_pos hl, if_pos hl]
      · rw [if_neg hl, if_neg hl, tableLookup_cons]
        have : hd.1 ≠ l := by rw [hh]; exact fun he => hl he.symm
        rw [if_neg this]
    · rw [if_pos (by simp [hh])]
      rw [tableLookup_cons, ih, tableLookup_cons]
      by_cases hl : l = label
      · have hne : hd.1 ≠ l := by rw [hl]; exact hh
        rw [if_neg hne, if_pos hl, if_pos hl]
      · rw [if_neg hl, if_neg hl]

theorem tableLookup_isSome_iff_mem (tbl : List (Nat × Nat)) (l : Nat) :
    (tableLookup tbl l).isSome = true ↔ l ∈ tbl.map (fun p => p.1) := by
  induction tbl with
  | nil => simp [tableLookup_nil]
  | cons hd tl ih =>
    rw [tableLookup_cons]
    by_cases h : hd.1 = l
    · simp [h]
    · simp only [if_neg h, List.map_cons, List.mem_cons]
      rw [ih]
      constructor
      · intro hh
        exact Or.inr hh
      · intro hh
        rcases hh with hh | hh
        · exact absurd hh.symm h
        · exact hh

theorem tableLookup_mem (tbl : List (Nat × Nat)) (l i : Nat)
    (h : tableLookup tbl l = some i) : (l, i) ∈ tbl := by
  induction tbl with
  | nil => rw [tableLookup_nil] at h; cases h
  | cons hd tl ih =>
    rw [tableLookup_cons] at h
    by_cases hh : hd.1 = l
    · rw [if_pos hh] at h
      obtain rfl : hd.2 = i := by injection h
      have : (l, hd.2) = hd := by rw [← hh]
      rw [this]
      exact List.mem_cons_self hd tl
    · rw [if_neg hh] at h
      exact List.mem_cons_of_mem hd (ih h)

theorem getElem?_insertIdx_lt :
    ∀ (l : List Nat) (x : Nat) (i j : Nat), j < i → (l.insertIdx i x)[j]? = l[j]? := by
  intro l
  induction l with
  | nil =>
    intro x i j h
    cases i with
    | zero => omega
    | succ i' => rw [List.insertIdx_succ_nil]
  | cons a as ih =>
    intro x i j h
    cases i with
    | zero => omega
    | succ i' =>
      rw [List.insertIdx_succ_cons]
      cases j with
      | zero => simp
      | succ j' =>
        rw [List.getElem?_cons_succ, List.getElem?_cons_succ]
        exact ih x i' j' (by omega)

theorem getElem?_insertIdx_self :
    ∀ (l : List Nat) (x : Nat) (i : Nat), i ≤ l.length → (l.insertIdx i x)[i]? = some x := by
  intro l
  induction l with
  | nil =>
    intro x i h
    obtain rfl : i = 0 := by simpa using h
    rfl
  | cons a as ih =>
    intro x i h
    cases i with
    | zero => rfl
    | succ i' =>
      rw [List.insertIdx_succ_cons, List.getElem?_cons_succ]
      exact ih x i' (by simpa using h)

theorem getElem?_insertIdx_ge :
    ∀ (l : List Nat) (x : Nat) (i j : Nat), i ≤ l.length → i ≤ j →
      (l.insertIdx i x)[j + 1]? = l[j]? := by
  intro l
  induction l with
  | nil =>
    intro x i j h1 h2
    obtain rfl : i = 0 := by simpa using h1
    rw [List.insertIdx_zero, List.getElem?_cons_succ]
  | cons a as ih =>
    intro x i j h1 h2
    cases i with
    | zero =>
      rw [List.insertIdx_zero, List.getElem?_cons_succ]
    | succ i' =>
      rw [List.insertIdx_succ_cons]
      cases j with
      | zero => omega
      | succ j' =>
        rw [List.getElem?_cons_succ, List.getElem?_cons_succ]
        exact ih x i' j' (by simpa using h1) (by omega)

theorem getElem?_eraseIdx_lt :
    ∀ (l : List Nat) (i j : Nat), j < i → (l.eraseIdx i)[j]? = l[j]? := by
  intro l
  induction l with
  | nil => intro i j h; rfl
  | cons a as ih =>
    intro i j h
    cases i with
    | zero => omega
    | succ i' =>
      show (a :: as.eraseIdx i')[j]? = _
      cases j with
      | zero => simp
      | succ j' =>
        rw [List.getElem?_cons_succ, List.getElem?_cons_succ]
        exact ih i' j' (by omega)

theorem getElem?_eraseIdx_ge :
    ∀ (l : List Nat) (i j : Nat), i ≤ j → (l.eraseIdx i)[j]? = l[j + 1]? := by
  intro l
  induction l with
  | nil => intro i j h; rfl
  | cons a as ih =>
    intro i j h
    cases i with
    | zero =>
      show as[j]? = (a :: as)[j + 1]?
      rw [List.getElem?_cons_succ]
    | succ i' =>
      show (a :: as.eraseIdx i')[j]? = _
      cases j with
      | zero => omega
      | succ j' =>
        rw [List.getElem?_cons_succ, List.getElem?_cons_succ]
        exact ih i' j' (by omega)

theorem insert_stage_tableLookup (s : Schedule) (i stage l : Nat) :
    tableLookup (insert_stage s i stage).index_table l
      = (tableLookup s.index_table l).map (fun j => if i ≤ j then j + 1 else j) := by
  have hcong : s.index_table.map (fun p => if i ≤ p.2 then (p.1, p.2 + 1) else p)
      = s.index_table.map (fun p => (p.1, if i ≤ p.2 then p.2 + 1 else p.2)) := by
    apply List.map_congr_left
    intro p _
    by_cases h : i ≤ p.2 <;> simp [h]
  show tableLookup (s.index_table.map (fun p => if i ≤ p.2 then (p.1, p.2 + 1) else p)) l = _
  rw [hcong]
  exact tableLookup_map_adjust s.index_table l (fun j => if i ≤ j then j + 1 else j)

theorem insert_stage_labels (s : Schedule) (i stage : Nat) :
    labelsOf (insert_stage s i stage) = labelsOf s := by
  simp only [labelsOf, insert_stage, List.map_map]
  apply List.map_congr_left
  intro p _
  by_cases h : i ≤ p.2 <;> simp [h, Function.comp]

theorem insert_stage_indices (s : Schedule) (i stage : Nat) :
    (insert_stage s i stage).index_table.map (fun p => p.2)
      = (s.index_table.map (fun p => p.2)).map (fun j => if i ≤ j then j + 1 else j) := by
  simp only [insert_stage, List.map_map]
  apply List.map_congr_left
  intro p _
  by_cases h : i ≤ p.2 <;> simp [h, Function.comp]

theorem remove_stage_tableLookup (s : Schedule) (i l : Nat) :
    tableLookup (remove_stage s i).index_table l
      = (tableLookup s.index_table l).map (fun j => if i < j then j - 1 else j) := by
  have hcong : s.index_table.map (fun p => if i < p.2 then (p.1, p.2 - 1) else p)
      = s.index_table.map (fun p => (p.1, if i < p.2 then p.2 - 1 else p.2)) := by
    apply List.map_congr_left
    intro p _
    by_cases h : i < p.2 <;> simp [h]
  show tableLookup (s.index_table.map (fun p => if i < p.2 then (p.1, p.2 - 1) else p)) l = _
  rw [hcong]
  exact tableLookup_map_adjust s.index_table l (fun j => if i < j then j - 1 else j)

theorem remove_stage_labels (s : Schedule) (i : Nat) :
    labelsOf (remove_stage s i) = labelsOf s := by
  simp only [labelsOf, remove_stage, List.map_map]
  apply List.map_congr_left
  intro p _
  by_cases h : i < p.2 <;> simp [h, Function.comp]

theorem remove_stage_indices (s : Schedule) (i : Nat) :
    (remove_stage s i).index_table.map (fun p => p.2)
      = (s.index_table.map (fun p => p.2)).map (fun j => if i < j then j - 1 else j) := by
  simp only [remove_stage, List.map_map]
  apply List.map_congr_left
  intro p _
  by_cases h : i < p.2 <;> simp [h, Function.comp]

theorem insert_label_of_fresh (s : Schedule) (i label : Nat) (h : label ∉ labelsOf s) :
    insert_label s i label = some { s with index_table := s.index_table ++ [(label, i)] } := by
  unfold insert_label
  have hc : ¬(s.index_table.any (fun p => p.1 == label) = true) := by
    intro hc
    rcases List.any_eq_true.mp hc with ⟨p, hp, hpl⟩
    exact h (List.mem_map.mpr ⟨p, hp, by simpa using hpl⟩)
  rw [if_neg hc]

theorem shiftUp_injective (i : Nat) :
    Function.Injective (fun j => if i ≤ j then j + 1 else j) := by
  intro a b h
  simp only at h
  split_ifs at h <;> omega

theorem schedule_add_spec (s : Schedule) (label stage : Nat) (hwf : ScheduleWF s)
    (hfresh : label ∉ labelsOf s) :
    ∃ s', Schedule.add s label stage = some s' ∧
      ScheduleWF s' ∧ s'.stages = s.stages ++ [stage] ∧
      stage_index s' label = some s.stages.length ∧
      labeledStage s' label = some stage ∧
      (∀ l, l ≠ label → stage_index s' l = stage_index s l) ∧
      (∀ l, l ≠ label → labeledStage s' l = labeledStage s l) := by
  have hlook : ∀ l, l ≠ label →
      tableLookup (s.index_table ++ [(label, s.stages.length)]) l = stage_index s l := by
    intro l hl
    rw [tableLookup_append_single_ne s.index_table label s.stages.length l hl]
    rfl
  refine ⟨{ stages := s.stages ++ [stage],
            index_table := s.index_table ++ [(label, s.stages.length)] },
          ?_, ⟨?_, ?_, ?_⟩, rfl, ?_, ?_, ?_, ?_⟩
  · unfold Schedule.add
    rw [insert_label_of_fresh s s.stages.length label hfresh]
    rfl
  · show (List.map (fun p => p.1) (s.index_table ++ [(label, s.stages.length)])).Nodup
    rw [List.map_append]
    refine List.nodup_append.mpr ⟨hwf.1, ?_, ?_⟩
    · exact List.nodup_singleton label
    · intro a ha hb
      simp only [List.map_cons, List.map_nil, List.mem_singleton] at hb
      subst hb
      exact hfresh ha
  · intro p hp
    show p.2 < (s.stages ++ [stage]).length
    rw [List.length_append, List.length_singleton]
    rcases List.mem_append.mp hp with h | h
    · have := hwf.2.1 p h
      omega
    · have : p = (label, s.stages.length) := List.mem_singleton.mp h
      rw [this]
      omega
  · show (List.map (fun p => p.2) (s.index_table ++ [(label, s.stages.length)])).Nodup
    rw [List.map_append]
    refine List.nodup_append.mpr ⟨hwf.2.2, ?_, ?_⟩
    · exact List.nodup_singleton s.stages.length
    · intro a ha hb
      simp only [List.map_cons, List.map_nil, List.mem_singleton] at hb
      subst hb
      rcases List.mem_map.mp ha with ⟨q, hq, hq2⟩
      have := hwf.2.1 q hq
      omega
  · exact tableLookup_append_single_self s.index_table label s.stages.length hfresh
  · have h1 : tableLookup (s.index_table ++ [(label, s.stages.length)]) label
        = some s.stages.length :=
      tableLookup_append_single_self s.index_table label s.stages.length hfresh
    unfold labeledStage
    rw [stage_index_eq_tableLookup]
    show (tableLookup (s.index_table ++ [(label, s.stages.length)]) label).bind _ = some stage
    rw [h1]
    show (s.stages ++ [stage])[s.stages.length]? = some stage
    exact List.getElem?_concat_length s.stages stage
  · intro l hl
    exact hlook l hl
  · intro l hl
    unfold labeledStage
    rw [stage_index_eq_tableLookup]
    show (tableLookup (s.index_table ++ [(label, s.stages.length)]) l).bind _ = _
    rw [hlook l hl]
    cases hcase : stage_index s l with
    | none => rfl
    | some j =>
      have hmem := tableLookup_mem s.index_table l j (stage_index_eq_tableLookup s l ▸ hcase)
      have hj : j < s.stages.length := hwf.2.1 (l, j) hmem
      show (s.stages ++ [stage])[j]? = s.stages[j]?
      exact List.getElem?_append_left hj

theorem schedule_add_before_spec (s : Schedule) (target_label label stage i : Nat)
    (hwf : ScheduleWF s) (hi : stage_index s target_label = some i)
    (hfresh : label ∉ labelsOf s) :
    ∃ s', add_before s target_label label stage = some s' ∧
      ScheduleWF s' ∧ s'.stages = s.stages.insertIdx i stage ∧
      stage_index s' label = some i ∧
      labeledStage s' label = some stage ∧
      (∀ l, l ≠ label →
        stage_index s' l = (stage_index s l).map (fun j => if i ≤ j then j + 1 else j)) ∧
      (∀ l, l ≠ label → labeledStage s' l = labeledStage s l) := by
  have hmem := tableLookup_mem s.index_table target_label i
    (stage_index_eq_tableLookup s target_label ▸ hi)
  have hilt : i < s.stages.length := hwf.2.1 (target_label, i) hmem
  have hfresh' : label ∉ labelsOf (insert_stage s i stage) := by
    rw [insert_stage_labels]
    exact hfresh
  have hlook : ∀ l, l ≠ label →
      tableLookup ((insert_stage s i stage).index_table ++ [(label, i)]) l
        = (stage_index s l).map (fun j => if i ≤ j then j + 1 else j) := by
    intro l hl
    rw [tableLookup_append_single_ne _ label i l hl, insert_stage_tableLookup]
    rfl
  refine ⟨{ stages := s.stages.insertIdx i stage,
            index_table := (insert_stage s i stage).index_table ++ [(label, i)] },
          ?_, ⟨?_, ?_, ?_⟩, rfl, ?_, ?_, ?_, ?_⟩
  · have e1 : add_before s target_label label stage
        = insert_label (insert_stage s i stage) i label := by
      unfold add_before
      rw [hi]
    rw [e1, insert_label_of_fresh (insert_stage s i stage) i label hfresh']
    rfl
  · show (List.map (fun p => p.1) ((insert_stage s i stage).index_table ++ [(label, i)])).Nodup
    rw [List.map_append]
    refine List.nodup_append.mpr ⟨?_, ?_, ?_⟩
    · have h := insert_stage_labels s i stage
      show (labelsOf (insert_stage s i stage)).Nodup
      rw [h]
      exact hwf.1
    · exact List.nodup_singleton label
    · intro a ha hb
      simp only [List.map_cons, List.map_nil, List.mem_singleton] at hb
      subst hb
      have ha' : a ∈ labelsOf (insert_stage s i stage) := ha
      rw [insert_stage_labels] at ha'
      exact hfresh ha'
  · intro p hp
    show p.2 < (s.stages.insertIdx i stage).length
    rw [List.length_insertIdx i s.stages (le_of_lt hilt)]
    rcases List.mem_append.mp hp with h | h
    · rcases List.mem_map.mp h with ⟨q, hq, hpq⟩
      have hq2 := hwf.2.1 q hq
      by_cases hle : i ≤ q.2
      · rw [if_pos hle] at hpq
        rw [← hpq]
        omega
      · rw [if_neg hle] at hpq
        rw [← hpq]
        omega
    · have : p = (label, i) := List.mem_singleton.mp h
      rw [this]
      omega
  · show (List.map (fun p => p.2) ((insert_stage s i stage).index_table ++ [(label, i)])).Nodup
    rw [List.map_append, insert_stage_indices]
    refine List.nodup_append.mpr ⟨?_, ?_, ?_⟩
    · exact hwf.2.2.map (shiftUp_injective i)
    · exact List.nodup_singleton i
    · intro a ha hb
      simp only [List.map_cons, List.map_nil, List.mem_singleton] at hb
      rcases List.mem_map.mp ha with ⟨j, hj, hja⟩
      by_cases hle : i ≤ j
      · simp only [if_pos hle] at hja
        omega
      · simp only [if_neg hle] at hja
        omega
  · exact tableLookup_append_single_self (insert_stage s i stage).index_table label i hfresh'
  · have h1 : tableLookup ((insert_stage s i stage).index_table ++ [(label, i)]) label
        = some i :=
      tableLookup_append_single_self (insert_stage s i stage).index_table label i hfresh'
    unfold labeledStage
    rw [stage_index_eq_tableLookup]
    show (tableLookup ((insert_stage s i stage).index_table ++ [(label, i)]) label).bind _
      = some stage
    rw [h1]
    show (s.stages.insertIdx i stage)[i]? = some stage
    exact getElem?_insertIdx_self s.stages stage i (le_of_lt hilt)
  · intro l hl
    exact hlook l hl
  · intro l hl
    unfold labeledStage
    rw [stage_index_eq_tableLookup]
    show (tableLookup ((insert_stage s i stage).index_table ++ [(label, i)]) l).bind _ = _
    rw [hlook l hl]
    cases hcase : stage_index s l with
    | none => rfl
    | some j =>
      have hmem2 := tableLookup_mem s.index_table l j (stage_index_eq_tableLookup s l ▸ hcase)
      have hjlt : j < s.stages.length := hwf.2.1 (l, j) hmem2
      by_cases hij : i ≤ j
      · have hred : (some j).map (fun j => if i ≤ j then j + 1 else j) = some (j + 1) := by
          simp [hij]
        rw [hred]
        show (s.stages.insertIdx i stage)[j + 1]? = s.stages[j]?
        exact getElem?_insertIdx_ge s.stages stage i j (le_of_lt hilt) hij
      · have hred : (some j).map (fun j => if i ≤ j then j + 1 else j) = some j := by
          simp [hij]
        rw [hred]
        show (s.stages.insertIdx i stage)[j]? = s.stages[j]?
        exact getElem?_insertIdx_lt s.stages stage i j (by omega)

theorem schedule_add_after_spec (s : Schedule) (target_label label stage i : Nat)
    (hwf : ScheduleWF s) (hi : stage_index s target_label = some i)
    (hfresh : label ∉ labelsOf s) :
    ∃ s', add_after s target_label label stage = some s' ∧
      ScheduleWF s' ∧ s'.stages = s.stages.insertIdx (i + 1) stage ∧
      stage_index s' label = some (i + 1) ∧
      labeledStage s' label = some stage ∧
      (∀ l, l ≠ label →
        stage_index s' l = (stage_index s l).map (fun j => if i + 1 ≤ j then j + 1 else j)) ∧
      (∀ l, l ≠ label → labeledStage s' l = labeledStage s l) := by
  have hmem := tableLookup_mem s.index_table target_label i
    (stage_index_eq_tableLookup s target_label ▸ hi)
  have hilt : i < s.stages.length := hwf.2.1 (target_label, i) hmem
  have hile : i + 1 ≤ s.stages.length := hilt
  have hfresh' : label ∉ labelsOf (insert_stage s (i + 1) stage) := by
    rw [insert_stage_labels]
    exact hfresh
  have hlook : ∀ l, l ≠ label →
      tableLookup ((insert_stage s (i + 1) stage).index_table ++ [(label, i + 1)]) l
        = (stage_index s l).map (fun j => if i + 1 ≤ j then j + 1 else j) := by
    intro l hl
    rw [tableLookup_append_single_ne _ label (i + 1) l hl, insert_stage_tableLookup]
    rfl
  refine ⟨{ stages := s.stages.insertIdx (i + 1) stage,
            index_table := (insert_stage s (i + 1) stage).index_table ++ [(label, i + 1)] },
          ?_, ⟨?_, ?_, ?_⟩, rfl, ?_, ?_, ?_, ?_⟩
  · have e1 : add_after s target_label label stage
        = insert_label (insert_stage s (i + 1) stage) (i + 1) label := by
      unfold add_after
      rw [hi]
    rw [e1, insert_label_of_fresh (insert_stage s (i + 1) stage) (i + 1) label hfresh']
    rfl
  · show (List.map (fun p => p.1)
      ((insert_stage s (i + 1) stage).index_table ++ [(label, i + 1)])).Nodup
    rw [List.map_append]
    refine List.nodup_append.mpr ⟨?_, ?_, ?_⟩
    · have h := insert_stage_labels s (i + 1) stage
      show (labelsOf (insert_stage s (i + 1) stage)).Nodup
      rw [h]
      exact hwf.1
    · exact List.nodup_singleton label
    · intro a ha hb
      simp only [List.map_cons, List.map_nil, List.mem_singleton] at hb
      subst hb
      have ha' : a ∈ labelsOf (insert_stage s (i + 1) stage) := ha
      rw [insert_stage_labels] at ha'
      exact hfresh ha'
  · intro p hp
    show p.2 < (s.stages.insertIdx (i + 1) stage).length
    rw [List.length_insertIdx (i + 1) s.stages hile]
    rcases List.mem_append.mp hp with h | h
    · rcases List.mem_map.mp h with ⟨q, hq, hpq⟩
      have hq2 := hwf.2.1 q hq
      by_cases hle : i + 1 ≤ q.2
      · rw [if_pos hle] at hpq
        rw [← hpq]
        omega
      · rw [if_neg hle] at hpq
        rw [← hpq]
        omega
    · have : p = (label, i + 1) := List.mem_singleton.mp h
      rw [this]
      omega
  · show (List.map (fun p => p.2)
      ((insert_stage s (i + 1) stage).index_table ++ [(label, i + 1)])).Nodup
    rw [List.map_append, insert_stage_indices]
    refine List.nodup_append.mpr ⟨?_, ?_, ?_⟩
    · exact hwf.2.2.map (shiftUp_injective (i + 1))
    · exact List.nodup_singleton (i + 1)
    · intro a ha hb
      simp only [List.map_cons, List.map_nil, List.mem_singleton] at hb
      rcases List.mem_map.mp ha with ⟨j, hj, hja⟩
      by_cases hle : i + 1 ≤ j
      · simp only [if_pos hle] at hja
        omega
      · simp only [if_neg hle] at hja
        omega
  · exact tableLookup_append_single_self
      (insert_stage s (i + 1) stage).index_table label (i + 1) hfresh'
  · have h1 : tableLookup ((insert_stage s (i + 1) stage).index_table ++ [(label, i + 1)]) label
        = some (i + 1) :=
      tableLookup_append_single_self
        (insert_stage s (i + 1) stage).index_table label (i + 1) hfresh'
    unfold labeledStage
    rw [stage_index_eq_tableLookup]
    show (tableLookup ((insert_stage s (i + 1) stage).index_table ++ [(label, i + 1)])
        label).bind _ = some stage
    rw [h1]
    show (s.stages.insertIdx (i + 1) stage)[i + 1]? = some stage
    exact getElem?_insertIdx_self s.stages stage (i + 1) hile
  · intro l hl
    exact hlook l hl
  · intro l hl
    unfold labeledStage
    rw [stage_index_eq_tableLookup]
    show (tableLookup ((insert_stage s (i + 1) stage).index_table ++ [(label, i + 1)]) l).bind _
      = _
    rw [hlook l hl]
    cases hcase : stage_index s l with
    | none => rfl
    | some j =>
      have hmem2 := tableLookup_mem s.index_table l j (stage_index_eq_tableLookup s l ▸ hcase)
      have hjlt : j < s.stages.length := hwf.2.1 (l, j) hmem2
      by_cases hij : i + 1 ≤ j
      · have hred : (some j).map (fun j => if i + 1 ≤ j then j + 1 else j) = some (j + 1) := by
          simp [hij]
        rw [hred]
        show (s.stages.insertIdx (i + 1) stage)[j + 1]? = s.stages[j]?
        exact getElem?_insertIdx_ge s.stages stage (i + 1) j hile hij
      · have hred : (some j).map (fun j => if i + 1 ≤ j then j + 1 else j) = some j := by
          simp [hij]
        rw [hred]
        show (s.stages.insertIdx (i + 1) stage)[j]? = s.stages[j]?
        exact getElem?_insertIdx_lt s.stages stage (i + 1) j (by omega)

theorem schedule_remove_spec (s : Schedule) (label i : Nat) (hwf : ScheduleWF s)
    (hi : stage_index s label = some i) :
    ∃ s', Schedule.remove s label = some s' ∧
      ScheduleWF s' ∧ s'.stages = s.stages.eraseIdx i ∧
      stage_index s' label = none ∧
      (∀ l, l ≠ label →
        stage_index s' l = (stage_index s l).map (fun j => if i < j then j - 1 else j)) ∧
      (∀ l, l ≠ label → labeledStage s' l = labeledStage s l) := by
  have hmem := tableLookup_mem s.index_table label i (stage_index_eq_tableLookup s label ▸ hi)
  have hilt : i < s.stages.length := hwf.2.1 (label, i) hmem
  have hinj := List.inj_on_of_nodup_map hwf.2.2
  have hfilter_ne_i : ∀ q ∈ s.index_table.filter (fun p => !(p.1 == label)), q.2 ≠ i := by
    intro q hq hqi
    have hq' := List.mem_filter.mp hq
    have hq1 : q = (label, i) := hinj hq'.1 hmem hqi
    have : ¬(q.1 = label) := by simpa using hq'.2
    exact this (congrArg Prod.fst hq1)
  have hlookS : ∀ l,
      tableLookup (remove_stage
          { s with index_table := s.index_table.filter (fun p => !(p.1 == label)) }
          i).index_table l
        = (if l = label then none else tableLookup s.index_table l).map
            (fun j => if i < j then j - 1 else j) := by
    intro l
    rw [remove_stage_tableLookup]
    have h := tableLookup_filter_out s.index_table label l
    have h' : tableLookup
        ({ s with index_table := s.index_table.filter (fun p => !(p.1 == label)) }
          : Schedule).index_table l
        = if l = label then none else tableLookup s.index_table l := h
    rw [h']
  refine ⟨remove_stage
      { s with index_table := s.index_table.filter (fun p => !(p.1 == label)) } i,
    ?_, ⟨?_, ?_, ?_⟩, rfl, ?_, ?_, ?_⟩
  · unfold Schedule.remove remove_label
    rw [hi]
    rfl
  · show (labelsOf (remove_stage
      { s with index_table := s.index_table.filter (fun p => !(p.1 == label)) } i)).Nodup
    rw [remove_stage_labels]
    show (List.map (fun p => p.1) (s.index_table.filter (fun p => !(p.1 == label)))).Nodup
    exact hwf.1.sublist ((List.filter_sublist s.index_table).map (fun p => p.1))
  · intro p hp
    show p.2 < (s.stages.eraseIdx i).length
    rw [List.length_eraseIdx_of_lt hilt]
    have hp' : p ∈ (s.index_table.filter (fun p => !(p.1 == label))).map
        (fun p => if i < p.2 then (p.1, p.2 - 1) else p) := hp
    rcases List.mem_map.mp hp' with ⟨q, hq, hpq⟩
    have hq2 : q.2 < s.stages.length := hwf.2.1 q (List.mem_filter.mp hq).1
    have hqne : q.2 ≠ i := hfilter_ne_i q hq
    by_cases hlt : i < q.2
    · rw [if_pos hlt] at hpq
      rw [← hpq]
      omega
    · rw [if_neg hlt] at hpq
      rw [← hpq]
      omega
  · show (List.map (fun p => p.2) (remove_stage
      { s with index_table := s.index_table.filter (fun p => !(p.1 == label)) }
      i).index_table).Nodup
    rw [remove_stage_indices]
    have hall : ∀ x ∈ (s.index_table.filter (fun p => !(p.1 == label))).map (fun p => p.2),
        x ≠ i := by
      intro x hx hxi
      rcases List.mem_map.mp hx with ⟨q, hq, hqx⟩
      exact hfilter_ne_i q hq (hqx.trans hxi)
    refine List.Nodup.map_on ?_ ?_
    · intro x hx y hy hxy
      have hxne : x ≠ i := hall x hx
      have hyne : y ≠ i := hall y hy
      by_cases hltx : i < x <;> by_cases hlty : i < y
      · rw [if_pos hltx, if_pos hlty] at hxy
        omega
      · rw [if_pos hltx, if_neg hlty] at hxy
        omega
      · rw [if_neg hltx, if_pos hlty] at hxy
        omega
      · rw [if_neg hltx, if_neg hlty] at hxy
        omega
    · exact hwf.2.2.sublist ((List.filter_sublist s.index_table).map (fun p => p.2))
  · rw [stage_index_eq_tableLookup, hlookS label]
    simp
  · intro l hl
    rw [stage_index_eq_tableLookup, hlookS l, if_neg hl]
    rfl
  · intro l hl
    unfold labeledStage
    rw [stage_index_eq_tableLookup, hlookS l, if_neg hl, ← stage_index_eq_tableLookup]
    cases hcase : stage_index s l with
    | none => rfl
    | some j =>
      have hmem2 := tableLookup_mem s.index_table l j (stage_index_eq_tableLookup s l ▸ hcase)
      have hjlt : j < s.stages.length := hwf.2.1 (l, j) hmem2
      have hjne : j ≠ i := by
        intro hji
        have h4 : (l, j) = (label, i) := hinj hmem2 hmem hji
        exact hl (congrArg Prod.fst h4)
      by_cases hlt : i < j
      · have hred : (some j).map (fun j => if i < j then j - 1 else j) = some (j - 1) := by
          simp [hlt]
        rw [hred]
        show (s.stages.eraseIdx i)[j - 1]? = s.stages[j]?
        have h3 := getElem?_eraseIdx_ge s.stages i (j - 1) (by omega)
        have hj1 : j - 1 + 1 = j := by omega
        rw [hj1] at h3
        exact h3
      · have hred : (some j).map (fun j => if i < j then j - 1 else j) = some j := by
          simp [hlt]
        rw [hred]
        show (s.stages.eraseIdx i)[j]? = s.stages[j]?
        exact getElem?_eraseIdx_lt s.stages i j (by omega)

/-- C10: on a well-formed pipeline, `index_table` keeps mapping every registered label to
the current position of its stage in `stages`, and each public operation maintains this:
`add` appends at the end and registers the label at the old length; `add_before` inserts
at the target label's index after shifting every table index at or past it up by one;
`add_after` does the same at the target's index plus one; `remove` deletes the label and
its stage after shifting every strictly greater index down by one.  Every pre-existing
label still denotes the very same stage afterwards, well-formedness is preserved, and
`run` executes the stages in their positional order. -/
theorem c10_schedule_index_table (s : Schedule) (target_label label stage : Nat)
    (hwf : ScheduleWF s) :
    (label ∉ labelsOf s →
      ∃ s', Schedule.add s label stage = some s' ∧ ScheduleWF s' ∧
        s'.stages = s.stages ++ [stage] ∧
        stage_index s' label = some s.stages.length ∧
        labeledStage s' label = some stage ∧
        (∀ l, l ≠ label → stage_index s' l = stage_index s l) ∧
        (∀ l, l ≠ label → labeledStage s' l = labeledStage s l)) ∧
    (∀ i, stage_index s target_label = some i → label ∉ labelsOf s →
      ∃ s', add_before s target_label label stage = some s' ∧ ScheduleWF s' ∧
        s'.stages = s.stages.insertIdx i stage ∧
        stage_index s' label = some i ∧
        labeledStage s' label = some stage ∧
        (∀ l, l ≠ label →
          stage_index s' l = (stage_index s l).map (fun j => if i ≤ j then j + 1 else j)) ∧
        (∀ l, l ≠ label → labeledStage s' l = labeledStage s l)) ∧
    (∀ i, stage_index s target_label = some i → label ∉ labelsOf s →
      ∃ s', add_after s target_label label stage = some s' ∧ ScheduleWF s' ∧
        s'.stages = s.stages.insertIdx (i + 1) stage ∧
        stage_index s' label = some (i + 1) ∧
        labeledStage s' label = some stage ∧
        (∀ l, l ≠ label →
          stage_index s' l = (stage_index s l).map (fun j => if i + 1 ≤ j then j + 1 else j)) ∧
        (∀ l, l ≠ label → labeledStage s' l = labeledStage s l)) ∧
    (∀ i, stage_index s label = some i →
      ∃ s', Schedule.remove s label = some s' ∧ ScheduleWF s' ∧
        s'.stages = s.stages.eraseIdx i ∧
        stage_index s' label = none ∧
        (∀ l, l ≠ label →
          stage_index s' l = (stage_index s l).map (fun j => if i < j then j - 1 else j)) ∧
        (∀ l, l ≠ label → labeledStage s' l = labeledStage s l)) ∧
    Schedule.runTrace s = s.stages := by
  refine ⟨?_, ?_, ?_, ?_, rfl⟩
  · intro hfresh
    exact schedule_add_spec s label stage hwf hfresh
  · intro i hi hfresh
    exact schedule_add_before_spec s target_label label stage i hwf hi hfresh
  · intro i hi hfresh
    exact schedule_add_after_spec s target_label label stage i hwf hi hfresh
  · intro i hi
    exact schedule_remove_spec s label i hwf hi

/-- Witness for C10: the concrete two-stage pipeline is well-formed, and the claim
theorem applies to it. -/
theorem c10_witness :
    ScheduleWF sampleSchedule ∧ Schedule.runTrace sampleSchedule = sampleSchedule.stages :=
  ⟨⟨by decide, by decide, by decide⟩,
    (c10_schedule_index_table sampleSchedule 0 2 30
      ⟨by decide, by decide, by decide⟩).2.2.2.2⟩
